import Mathlib

/-!
# Shallow embedding of the `gfrn` bulk find-and-replace tool

The repository is a Go command-line tool that walks a directory tree,
renames files/directories whose names contain a search term
(case-insensitively) and rewrites the contents of files with eligible
extensions.  Two revisions of the single source file are present; the
newer one (`src/unnamed/part_000`) applies renames in reverse discovery
order and is the authority for the rename algorithm.

Strings and byte contents are both modelled as `List Char`.
-/

namespace Gfrn

abbrev Str := List Char

/-- Embedding of `strings.ToLower` (ASCII case folding, which is what the
tool's inputs exercise). -/
def strToLower (s : Str) : Str := s.map Char.toLower

/-- Embedding of `strings.Index`: index of the leftmost occurrence of the
needle `t` in `s` (`some 0` for an empty needle, `none` when there is no
occurrence). -/
def strIndex : Str → Str → Option Nat
  | s, t =>
    if t.isPrefixOf s then some 0
    else
      match s with
      | [] => none
      | _ :: s' => (strIndex s' t).map (· + 1)

/-- Index of the rightmost occurrence of `t` in `s` (used to characterise
the capture group of the greedy pattern `.*(t).*`). -/
def strLastIndex : Str → Str → Option Nat
  | [], t => if t.isPrefixOf ([] : Str) then some 0 else none
  | c :: s', t =>
    match strLastIndex s' t with
    | some k => some (k + 1)
    | none => if t.isPrefixOf (c :: s') then some 0 else none

/-- `true` when `t` occurs in `s` case-insensitively; this is the
observable "the candidate matches the term" predicate of the tool. -/
def containsCI (t s : Str) : Bool := (strIndex (strToLower s) (strToLower t)).isSome

theorem strIndex_bound {s t : Str} {p : Nat} (h : strIndex s t = some p) :
    p + t.length ≤ s.length := by
  induction s generalizing p with
  | nil =>
    rw [strIndex] at h
    by_cases hp : t.isPrefixOf ([] : Str)
    · simp only [hp, if_pos] at h
      obtain rfl : (0 : Nat) = p := Option.some.inj h
      have : t <+: ([] : Str) := by
        rwa [← List.isPrefixOf_iff_prefix]
      simpa using this.length_le
    · simp [hp] at h
  | cons c s' ih =>
    rw [strIndex] at h
    by_cases hp : t.isPrefixOf (c :: s')
    · simp only [hp, if_pos] at h
      obtain rfl : (0 : Nat) = p := Option.some.inj h
      have : t <+: (c :: s') := by
        rwa [← List.isPrefixOf_iff_prefix]
      simpa using this.length_le
    · simp only [hp, Bool.false_eq_true, if_false, Option.map_eq_some'] at h
      obtain ⟨q, hq, rfl⟩ := h
      have := ih hq
      simp only [List.length_cons]
      omega

theorem strIndex_isPrefixOf {s t : Str} {p : Nat} (h : strIndex s t = some p) :
    t.isPrefixOf (s.drop p) = true := by
  induction s generalizing p with
  | nil =>
    rw [strIndex] at h
    by_cases hp : t.isPrefixOf ([] : Str)
    · simp only [hp, if_pos] at h
      obtain rfl : (0 : Nat) = p := Option.some.inj h
      simpa using hp
    · simp [hp] at h
  | cons c s' ih =>
    rw [strIndex] at h
    by_cases hp : t.isPrefixOf (c :: s')
    · simp only [hp, if_pos] at h
      obtain rfl : (0 : Nat) = p := Option.some.inj h
      simpa using hp
    · simp only [hp, Bool.false_eq_true, if_false, Option.map_eq_some'] at h
      obtain ⟨q, hq, rfl⟩ := h
      simpa using ih hq

theorem strIndex_isSome_of_isPrefixOf {s t : Str} {j : Nat}
    (h : t.isPrefixOf (s.drop j) = true) : (strIndex s t).isSome := by
  induction s generalizing j with
  | nil =>
    simp only [List.drop_nil] at h
    rw [strIndex]
    simp [h]
  | cons c s' ih =>
    rw [strIndex]
    by_cases hp : t.isPrefixOf (c :: s')
    · simp [hp]
    · match j with
      | 0 => simp only [List.drop_zero] at h; exact absurd h hp
      | j' + 1 =>
        simp only [List.drop_succ_cons] at h
        have := ih h
        rw [Option.isSome_iff_exists] at this
        obtain ⟨q, hq⟩ := this
        simp [hp, hq]

/-- Embedding of `strings.Split(str, ",")`. -/
def splitComma : Str → List Str
  | [] => [[]]
  | c :: rest =>
    match splitComma rest with
    | [] => [[]]
    | g :: gs => if c = ',' then [] :: g :: gs else (c :: g) :: gs

/-- Embedding of `splitToMap` (part_000 lines 301-310): split on commas,
lowercase each piece and prepend the given piece prefix; the resulting Go
map is modelled as the list of its keys. -/
def splitToMap (str : Str) (pre : Str) : List Str :=
  (splitComma str).map (fun s => pre ++ strToLower s)

/-- `defaultIgnores` (part_000 line 14). -/
def defaultIgnores : Str := ".vs,.git".toList

/-- Embedding of the ignore-flag fixup in `main` (lines 32-34): the flag
value is kept as-is when it starts with `".vs,.git"`, otherwise
`".vs,.git"` is prepended with no separator in between. -/
def mainIgnoreArg (i : Str) : Str :=
  if defaultIgnores.isPrefixOf i then i else defaultIgnores ++ i

/-- The effective ignore set produced by `main` + `run`:
`splitToMap(strings.ToLower(ignoredirs), ",", "")`. -/
def effIgnores (i : Str) : List Str :=
  splitToMap (strToLower (mainIgnoreArg i)) []

/-- C5: the claim says the effective ignore set always contains the two
built-ins `".vs"` and `".git"` plus each user-supplied name.  The code
concatenates the built-ins onto the user value with no separating comma,
so the user list `"node_modules"` yields the set
`{".vs", ".gitnode_modules"}`: the built-in `".git"` is lost and the
user's own entry is corrupted. -/
theorem ignores_builtin_lost :
    effIgnores ("node_modules".toList) =
      [".vs".toList, ".gitnode_modules".toList] ∧
    ".git".toList ∉ effIgnores ("node_modules".toList) ∧
    "node_modules".toList ∉ effIgnores ("node_modules".toList) := by
  decide

/-- The characters that `regexp.QuoteMeta` escapes (RE2 metacharacters). -/
def re2Meta (c : Char) : Bool :=
  c = '\\' || c = '.' || c = '+' || c = '*' || c = '?' || c = '(' || c = ')' ||
  c = '|' || c = '[' || c = ']' || c = '{' || c = '}' || c = '^' || c = '$'

/-- Modelled from the spec: the escaping the spec demands ("the
implementation must escape them before constructing any pattern-matching
primitive"), i.e. `regexp.QuoteMeta`: a backslash before every
metacharacter. -/
def quoteMeta (s : Str) : Str :=
  s.flatMap (fun c => if re2Meta c then ['\\', c] else [c])

/-- Embedding of `strings.Replace(s, old, new, -1)`, written with a step
budget so that it is structurally recursive (any budget above `s.length`
yields Go's behaviour; see `strReplace`).  An empty `old` matches before
every character and at the end, as in Go. -/
def strReplaceF : Nat → Str → Str → Str → Str
  | 0, s, _, _ => s
  | f + 1, s, [], new =>
    match s with
    | [] => new
    | c :: s' => new ++ c :: strReplaceF f s' [] new
  | f + 1, s, a :: rest, new =>
    match strIndex s (a :: rest) with
    | none => s
    | some p =>
        s.take p ++ new ++ strReplaceF f (s.drop (p + (a :: rest).length)) (a :: rest) new

/-- `strings.Replace(s, old, new, -1)`. -/
def strReplace (s old new : Str) : Str := strReplaceF (s.length + 1) s old new

theorem strReplaceF_succ_nil_cons (f : Nat) (c : Char) (s' new : Str) :
    strReplaceF (f + 1) (c :: s') [] new = new ++ c :: strReplaceF f s' [] new := rfl

theorem strReplaceF_succ_cons (f : Nat) (s : Str) (a : Char) (rest new : Str) :
    strReplaceF (f + 1) s (a :: rest) new =
      (match strIndex s (a :: rest) with
       | none => s
       | some p =>
           s.take p ++ new ++
             strReplaceF f (s.drop (p + (a :: rest).length)) (a :: rest) new) := rfl

theorem strReplaceF_congr : ∀ (f g : Nat) (s old new : Str),
    s.length < f → s.length < g → strReplaceF f s old new = strReplaceF g s old new := by
  intro f
  induction f with
  | zero => intro g s old new hf _; omega
  | succ f ih =>
    intro g s old new hf hg
    cases g with
    | zero => omega
    | succ g =>
      match old with
      | [] =>
        match s with
        | [] => rfl
        | c :: s' =>
          simp only [List.length_cons] at hf hg
          rw [strReplaceF_succ_nil_cons, strReplaceF_succ_nil_cons,
            ih g s' [] new (by omega) (by omega)]
      | a :: rest =>
        rw [strReplaceF_succ_cons, strReplaceF_succ_cons]
        cases hi : strIndex s (a :: rest) with
        | none => rfl
        | some p =>
          have hb := strIndex_bound hi
          simp only [List.length_cons] at hb
          dsimp only
          rw [ih g (s.drop (p + (a :: rest).length)) (a :: rest) new
            (by simp only [List.length_drop, List.length_cons]; omega)
            (by simp only [List.length_drop, List.length_cons]; omega)]

theorem strReplace_of_none {s old new : Str} (hne : old ≠ [])
    (h : strIndex s old = none) : strReplace s old new = s := by
  match old with
  | [] => exact absurd rfl hne
  | a :: rest =>
    show strReplaceF (s.length + 1) s (a :: rest) new = s
    rw [strReplaceF_succ_cons, h]

theorem strReplace_of_some {s old new : Str} {p : Nat} (hne : old ≠ [])
    (h : strIndex s old = some p) :
    strReplace s old new =
      s.take p ++ new ++ strReplace (s.drop (p + old.length)) old new := by
  match old with
  | [] => exact absurd rfl hne
  | a :: rest =>
    have hb := strIndex_bound h
    simp only [List.length_cons] at hb
    show strReplaceF (s.length + 1) s (a :: rest) new = _
    rw [strReplaceF_succ_cons, h]
    dsimp only
    congr 1
    exact strReplaceF_congr s.length ((s.drop (p + (a :: rest).length)).length + 1)
      (s.drop (p + (a :: rest).length)) (a :: rest) new
      (by simp only [List.length_drop, List.length_cons]; omega)
      (by omega)

/-- Embedding of the term-escaping in `run` (part_000 lines 48-49): only
the backslash and the period are escaped before the pattern
`"(?i:.*(" + strings.ToLower(p) + ").*)"` is compiled. -/
def escapeFind (find : Str) : Str :=
  strReplace (strReplace find ['\\'] ['\\', '\\']) ['.'] ['\\', '.']

/-- C7: the claim says every regex metacharacter in the search term is
escaped so the term always matches as literal fixed text.  The code
escapes only `\` and `.`: a term such as `"a*"` reaches
`regexp.MustCompile` with `*` still an active quantifier (the pattern
`(?i:.*(a*).*)` then matches candidates containing no literal `"a*"` at
all, since `a*` also matches the empty string), and a term such as
`"a("` makes `MustCompile` panic.  Periods, by contrast, are escaped
exactly as the spec demands. -/
theorem escapeFind_incomplete :
    escapeFind ("a.".toList) = quoteMeta ("a.".toList) ∧
    escapeFind ("a*".toList) = "a*".toList ∧
    quoteMeta ("a*".toList) = ['a', '\\', '*'] ∧
    re2Meta '*' = true := by decide

/-- Embedding of the tool's matching primitive: the capture group
`reg.FindAllStringSubmatch(candidate, -1)[0][1]` (resp.
`reg.FindAllSubmatch(contents, 1)[0][1]`) for the compiled pattern
`"(?i:.*(" + strings.ToLower(term) + ").*)"`, for terms that behave as
literal text after escaping.  Go's `regexp` uses leftmost-first (Perl)
semantics and `.` does not match a newline: the first match lies in the
first newline-free run containing an occurrence of the term, and the
greedy leading `.*` places the capture group at the **last** occurrence
inside that run.  The capture is a span of the candidate itself, hence
keeps the candidate's original casing.  `runStart` is the start of the
newline-free run containing the first occurrence `j0`, and `capturePos`
the position of the capture group within it. -/
def runStart (ls : Str) (j0 : Nat) : Nat :=
  j0 - ((ls.take j0).reverse.takeWhile (· != '\n')).length

def capturePos (ls lt : Str) (j0 : Nat) : Nat :=
  match strLastIndex ((ls.drop (runStart ls j0)).takeWhile (· != '\n')) lt with
  | some k => runStart ls j0 + k
  | none => j0

def regexCapture (t s : Str) : Option Str :=
  match strIndex (strToLower s) (strToLower t) with
  | none => none
  | some j0 =>
      some ((s.drop (capturePos (strToLower s) (strToLower t) j0)).take
        (strToLower t).length)

/-- The new name (resp. new contents) computed for a candidate: when the
pattern matches, every literal occurrence of the captured substring is
replaced by the replacement string (part_000 lines 105-107 and 257-258);
otherwise the candidate is unchanged. -/
def newNameOf (t r nm : Str) : Str :=
  match regexCapture t nm with
  | some cap => strReplace nm cap r
  | none => nm

theorem strLastIndex_isPrefixOf {s t : Str} {j : Nat}
    (h : strLastIndex s t = some j) : t.isPrefixOf (s.drop j) = true := by
  induction s generalizing j with
  | nil =>
    rw [strLastIndex] at h
    by_cases hp : t.isPrefixOf ([] : Str)
    · simp only [hp, if_pos] at h
      obtain rfl : (0 : Nat) = j := Option.some.inj h
      simpa using hp
    · simp [hp] at h
  | cons c s' ih =>
    rw [strLastIndex] at h
    cases hl : strLastIndex s' t with
    | some k =>
      simp only [hl] at h
      obtain rfl : k + 1 = j := Option.some.inj h
      simpa using ih hl
    | none =>
      simp only [hl] at h
      by_cases hp : t.isPrefixOf (c :: s')
      · simp only [hp, if_pos] at h
        obtain rfl : (0 : Nat) = j := Option.some.inj h
        simpa using hp
      · simp [hp] at h

theorem strLastIndex_isSome_of_isPrefixOf {s t : Str} {j : Nat}
    (h : t.isPrefixOf (s.drop j) = true) : (strLastIndex s t).isSome := by
  induction s generalizing j with
  | nil =>
    simp only [List.drop_nil] at h
    rw [strLastIndex]
    simp [h]
  | cons c s' ih =>
    rw [strLastIndex]
    cases hl : strLastIndex s' t with
    | some k => simp
    | none =>
      match j with
      | 0 =>
        simp only [List.drop_zero] at h
        simp [h]
      | j' + 1 =>
        simp only [List.drop_succ_cons] at h
        have := ih h
        simp [hl] at this

theorem strLastIndex_maximal {s t : Str} {j : Nat} (ht : t ≠ [])
    (h : strLastIndex s t = some j) :
    ∀ k, t.isPrefixOf (s.drop k) = true → k ≤ j := by
  induction s generalizing j with
  | nil =>
    intro k hk
    simp only [List.drop_nil] at hk
    rw [List.isPrefixOf_iff_prefix, List.prefix_nil] at hk
    exact absurd hk ht
  | cons c s' ih =>
    intro k hk
    rw [strLastIndex] at h
    cases hl : strLastIndex s' t with
    | some m =>
      simp only [hl] at h
      obtain rfl : m + 1 = j := Option.some.inj h
      match k with
      | 0 => omega
      | k' + 1 =>
        simp only [List.drop_succ_cons] at hk
        have := ih hl k' hk
        omega
    | none =>
      simp only [hl] at h
      match k with
      | 0 => omega
      | k' + 1 =>
        simp only [List.drop_succ_cons] at hk
        have := strLastIndex_isSome_of_isPrefixOf hk
        simp [hl] at this

theorem takeWhile_ne_newline {l : Str} (h : ∀ c ∈ l, (c != '\n') = true) :
    l.takeWhile (· != '\n') = l := by
  rw [List.takeWhile_eq_self_iff]
  intro x hx
  exact h x hx

/-- C1 counterexample: in the candidate `"FOOfoo"` with term `"foo"`,
the first case-insensitive occurrence is `"FOO"` (position 0), but the
code captures `"foo"` — the occurrence at position 3: the greedy leading
`.*` of the pattern `(?i:.*(foo).*)` puts the capture group at the last
occurrence.  `strings.Replace` then replaces only the literal `"foo"`,
producing `"FOObar"` rather than the `"barbar"` the claimed
first-occurrence behaviour would give. -/
theorem capture_not_first_occurrence :
    regexCapture ("foo".toList) ("FOOfoo".toList) = some ("foo".toList) ∧
    regexCapture ("foo".toList) ("FOOfoo".toList) ≠ some ("FOO".toList) ∧
    newNameOf ("foo".toList) ("bar".toList) ("FOOfoo".toList) = "FOObar".toList := by
  decide

theorem regexCapture_isSome (t s : Str) :
    (regexCapture t s).isSome = containsCI t s := by
  rw [regexCapture, containsCI]
  cases h : strIndex (strToLower s) (strToLower t) <;> simp [h]

/-- `ReadOp` (part_000 lines 74-77): a file loaded into memory; contents
are byte sequences, modelled like strings as `List Char`. -/
structure ReadOp where
  path : Str
  contents : Str
deriving DecidableEq

/-- `WriteOp` (part_000 lines 79-82): post-substitution contents destined
for a path. -/
structure WriteOp where
  path : Str
  contents : Str
deriving DecidableEq

/-- Embedding of `update` (part_000 lines 251-264): for each read record
whose contents match, emit a write record with every literal occurrence
of the captured substring replaced by the replacement; drop the rest. -/
def update (t r : Str) (l : List ReadOp) : List WriteOp :=
  l.filterMap (fun rd =>
    match regexCapture t rd.contents with
    | some cap => some ⟨rd.path, strReplace rd.contents cap r⟩
    | none => none)

/-- Embedding of the write stage (part_000 lines 286-298) acting on an
abstract content store: `os.Remove` followed by `os.WriteFile` amounts to
setting the path's contents (the success path; a failure is logged
per-file and does not abort). -/
def applyWrites (ws : List WriteOp) (st : Str → Option Str) : Str → Option Str :=
  ws.foldl (fun acc w => fun p => if p = w.path then some w.contents else acc p) st

theorem applyWrites_of_not_mem {ws : List WriteOp} {st : Str → Option Str} {p : Str}
    (h : ∀ w ∈ ws, w.path ≠ p) : applyWrites ws st p = st p := by
  induction ws generalizing st with
  | nil => rfl
  | cons w ws' ih =>
    have h1 := @ih (fun q => if q = w.path then some w.contents else st q)
      (fun w' hw' => h w' (List.mem_cons_of_mem w hw'))
    have h2 : p ≠ w.path := fun hp => h w (List.mem_cons_self w ws') hp.symm
    calc applyWrites (w :: ws') st p
        = applyWrites ws' (fun q => if q = w.path then some w.contents else st q) p := rfl
      _ = (if p = w.path then some w.contents else st p) := h1
      _ = st p := by simp [h2]

theorem applyWrites_of_unique {ws : List WriteOp} {st : Str → Option Str} {w : WriteOp}
    (hw : w ∈ ws) (huniq : ∀ w' ∈ ws, w'.path = w.path → w' = w) :
    applyWrites ws st w.path = some w.contents := by
  induction ws generalizing st with
  | nil => simp at hw
  | cons v ws' ih =>
    by_cases hmem : w ∈ ws'
    · exact @ih (fun q => if q = v.path then some v.contents else st q) hmem
        (fun w' hw' hp => huniq w' (List.mem_cons_of_mem v hw') hp)
    · have hv : v = w := by
        cases List.mem_cons.mp hw with
        | inl h => exact h.symm
        | inr h => exact absurd h hmem
      subst hv
      have hrest : ∀ w' ∈ ws', w'.path ≠ v.path := by
        intro w' hw' hp
        exact hmem ((huniq w' (List.mem_cons_of_mem v hw') hp) ▸ hw')
      calc applyWrites (v :: ws') st v.path
          = applyWrites ws' (fun q => if q = v.path then some v.contents else st q) v.path := rfl
        _ = (if v.path = v.path then some v.contents else st v.path) :=
            applyWrites_of_not_mem hrest
        _ = some v.contents := by simp

/-- C6: a read record produces a write record if and only if its contents
contain the term case-insensitively; the write stage then rewrites a
matching file so that its new contents are the old contents with every
literal occurrence of the captured substring replaced, while a
non-matching file's stored contents are left untouched. -/
theorem update_writes_iff (t r : Str) (l : List ReadOp) (st : Str → Option Str)
    (hpaths : (l.map ReadOp.path).Nodup) (rd : ReadOp) (hrd : rd ∈ l) :
    ((∃ w ∈ update t r l, w.path = rd.path) ↔ containsCI t rd.contents = true) ∧
    (containsCI t rd.contents = false →
      applyWrites (update t r l) st rd.path = st rd.path) ∧
    (∀ cap, regexCapture t rd.contents = some cap →
      applyWrites (update t r l) st rd.path = some (strReplace rd.contents cap r)) := by
  have hinj : ∀ x ∈ l, ∀ y ∈ l, x.path = y.path → x = y :=
    List.inj_on_of_nodup_map hpaths
  have hiff : (∃ w ∈ update t r l, w.path = rd.path) ↔ containsCI t rd.contents = true := by
    constructor
    · rintro ⟨w, hw, hwp⟩
      rw [update, List.mem_filterMap] at hw
      obtain ⟨rd', hrd', hf⟩ := hw
      cases hc : regexCapture t rd'.contents with
      | none => rw [hc] at hf; exact absurd hf (by simp)
      | some cap =>
        rw [hc] at hf
        have hpw : w.path = rd'.path := by
          rw [← Option.some.inj hf]
        have : rd' = rd := hinj rd' hrd' rd hrd (hpw ▸ hwp)
        subst this
        rw [← regexCapture_isSome, hc]
        rfl
    · intro hc
      rw [← regexCapture_isSome, Option.isSome_iff_exists] at hc
      obtain ⟨cap, hcap⟩ := hc
      refine ⟨⟨rd.path, strReplace rd.contents cap r⟩, ?_, rfl⟩
      rw [update, List.mem_filterMap]
      exact ⟨rd, hrd, by rw [hcap]⟩
  refine ⟨hiff, ?_, ?_⟩
  · intro hc
    apply applyWrites_of_not_mem
    intro w hw hwp
    exact absurd (hiff.mp ⟨w, hw, hwp⟩) (by simp [hc])
  · intro cap hcap
    have hw0 : (⟨rd.path, strReplace rd.contents cap r⟩ : WriteOp) ∈ update t r l := by
      rw [update, List.mem_filterMap]
      exact ⟨rd, hrd, by rw [hcap]⟩
    exact applyWrites_of_unique hw0 (by
      intro w' hw' hp
      rw [update, List.mem_filterMap] at hw'
      obtain ⟨rd', hrd', hf⟩ := hw'
      cases hc' : regexCapture t rd'.contents with
      | none => rw [hc'] at hf; exact absurd hf (by simp)
      | some cap' =>
        rw [hc'] at hf
        obtain rfl := Option.some.inj hf
        have : rd' = rd := hinj rd' hrd' rd hrd hp
        subst this
        obtain rfl := Option.some.inj (hc' ▸ hcap)
        rfl)

theorem update_writes_iff_witness :
    ((∃ w ∈ update ("old".toList) ("new".toList)
        [⟨"a.txt".toList, "x old y".toList⟩, ⟨"b.txt".toList, "nothing".toList⟩],
        w.path = "a.txt".toList) ↔
      containsCI ("old".toList) ("x old y".toList) = true) ∧
    (containsCI ("old".toList) ("x old y".toList) = false →
      applyWrites (update ("old".toList) ("new".toList)
        [⟨"a.txt".toList, "x old y".toList⟩, ⟨"b.txt".toList, "nothing".toList⟩])
        (fun _ => none) ("a.txt".toList) = none) ∧
    (∀ cap, regexCapture ("old".toList) ("x old y".toList) = some cap →
      applyWrites (update ("old".toList) ("new".toList)
        [⟨"a.txt".toList, "x old y".toList⟩, ⟨"b.txt".toList, "nothing".toList⟩])
        (fun _ => none) ("a.txt".toList) =
        some (strReplace ("x old y".toList) cap ("new".toList))) :=
  update_writes_iff ("old".toList) ("new".toList)
    [⟨"a.txt".toList, "x old y".toList⟩, ⟨"b.txt".toList, "nothing".toList⟩]
    (fun _ => none) (by decide) ⟨"a.txt".toList, "x old y".toList⟩ (by decide)

/-- `GOPROCESSES` (part_000 line 15). -/
def GOPROCESSES : Nat := 48

/-- Go slice expression `backing[lo:hi]` over a slice of length
`l.length` whose backing array has capacity `cap`: cells between the
length and the capacity hold zero values (`zero`), as the runtime zeroes
grown arrays; a bound beyond the capacity is a runtime panic, modelled
as `none`. -/
def goSlice (l : List α) (zero : α) (cap lo hi : Nat) : Option (List α) :=
  if lo ≤ hi ∧ hi ≤ cap then
    some (((l ++ List.replicate (cap - l.length) zero).drop lo).take (hi - lo))
  else none

/-- Embedding of `read` (part_000 lines 200-216): empty paths are
skipped, a failing `os.ReadFile` (modelled by `fetch`) is logged and
skipped, every successful read yields a `ReadOp`. -/
def readFiles (fetch : Str → Option Str) (l : List Str) : List ReadOp :=
  l.filterMap (fun p => if p = [] then none else (fetch p).map (fun c => ReadOp.mk p c))

/-- The fan-out/fan-in shape shared by `brokerRead`, `brokerUpdate` and
`brokerWrite` (part_000 lines 167-198, 218-249, 266-284): when the list
has more than `2*GOPROCESSES` items, worker `i < GOPROCESSES` receives
the Go slice `list[i*groupSize:(i+1)*groupSize]` with
`groupSize = len/GOPROCESSES + 1` and applies the per-group stage
function `work` to it; the workers' outputs are collected into one
aggregate, modelled here in group order (the properties under study
concern the multiset of results, which any channel interleaving
preserves).  Small lists are processed sequentially in one call. -/
def broker (work : List α → List β) (zero : α) (cap : Nat) (list : List α) :
    Option (List β) :=
  if GOPROCESSES * 2 < list.length ∧ 1 < GOPROCESSES then
    match (List.range GOPROCESSES).mapM (fun i =>
        goSlice list zero cap (i * (list.length / GOPROCESSES + 1))
          ((i + 1) * (list.length / GOPROCESSES + 1))) with
    | some grps => some (grps.flatMap work)
    | none => none
  else some (work list)

/-- `brokerRead` (part_000 lines 167-198). -/
def brokerRead (fetch : Str → Option Str) (cap : Nat) (list : List Str) :
    Option (List ReadOp) :=
  broker (readFiles fetch) [] cap list

/-- `brokerUpdate` (part_000 lines 218-249); the zero `ReadOp` has empty
path and empty contents. -/
def brokerUpdate (t r : Str) (cap : Nat) (list : List ReadOp) :
    Option (List WriteOp) :=
  broker (update t r) ⟨[], []⟩ cap list

/-- `brokerWrite` (part_000 lines 266-284): the same fan-out partition;
each worker performs its group's remove-and-rewrite file effects (their
net effect on the tree is applied by the caller, see `updList` and
`applyWrites`), so the collected per-group value is the group itself;
the zero `WriteOp` has empty path and empty contents. -/
def brokerWrite (cap : Nat) (list : List WriteOp) : Option (List WriteOp) :=
  broker (fun l => l) ⟨[], []⟩ cap list

/-- `filepath.Join` over the accumulated path components of the walk. -/
def joinPath : List Str → Str
  | [] => []
  | [p] => p
  | p :: q :: rest => p ++ '/' :: joinPath (q :: rest)

theorem mapM_option_some {α β : Type} {f : α → Option β} {g : α → β} :
    ∀ (l : List α), (∀ a ∈ l, f a = some (g a)) → l.mapM f = some (l.map g) := by
  intro l
  induction l with
  | nil => intro _; rfl
  | cons a l ih =>
    intro h
    rw [List.mapM_cons, h a (List.mem_cons_self a l),
      ih (fun b hb => h b (List.mem_cons_of_mem a hb))]
    rfl

/-- When the backing capacity accommodates every slice bound, the
fan-out partition processes exactly the padded prefix `take (W*g)`,
group by group. -/
theorem flatMap_slices {α β : Type} (work : List α → List β) (padded : List α) (g : Nat)
    (happ : ∀ l1 l2, work (l1 ++ l2) = work l1 ++ work l2) :
    ∀ W, ((List.range W).map (fun i => (padded.drop (i * g)).take g)).flatMap work =
      work (padded.take (W * g)) := by
  have h0 : work [] = [] := by
    have := happ [] []
    simpa using this
  intro W
  induction W with
  | zero => simpa using h0.symm
  | succ W ih =>
    rw [List.range_succ, List.map_append, List.flatMap_append, ih]
    have harith : (W + 1) * g = W * g + g := by
      rw [Nat.succ_mul]
    rw [harith, List.take_add, happ]
    simp [h0]

/-- Under a capacity covering every slice bound, each worker's slice is
in bounds, so the fan-out partition as a whole succeeds with the padded
groups. -/
theorem broker_slices {α : Type} (zero : α) (cap : Nat) (list : List α)
    (hbound : GOPROCESSES * (list.length / GOPROCESSES + 1) ≤ cap) :
    (List.range GOPROCESSES).mapM (fun i =>
        goSlice list zero cap (i * (list.length / GOPROCESSES + 1))
          ((i + 1) * (list.length / GOPROCESSES + 1))) =
      some ((List.range GOPROCESSES).map (fun i =>
        ((list ++ List.replicate (cap - list.length) zero).drop
          (i * (list.length / GOPROCESSES + 1))).take
          (list.length / GOPROCESSES + 1))) := by
  apply mapM_option_some
  intro i hi
  rw [List.mem_range] at hi
  have hle : (i + 1) * (list.length / GOPROCESSES + 1) ≤ cap :=
    le_trans (Nat.mul_le_mul_right _ hi) hbound
  have hmono : i * (list.length / GOPROCESSES + 1) ≤
      (i + 1) * (list.length / GOPROCESSES + 1) :=
    Nat.mul_le_mul_right _ (Nat.le_succ i)
  have harg : (i + 1) * (list.length / GOPROCESSES + 1) -
      i * (list.length / GOPROCESSES + 1) = list.length / GOPROCESSES + 1 := by
    have h2 : (i + 1) * (list.length / GOPROCESSES + 1) =
        i * (list.length / GOPROCESSES + 1) + (list.length / GOPROCESSES + 1) := by
      rw [Nat.succ_mul]
    omega
  rw [goSlice, if_pos ⟨hmono, hle⟩, harg]

/-- The broker never panics when the backing capacity covers every slice
bound, whatever the per-group stage function does. -/
theorem broker_isSome {α β : Type} (work : List α → List β) (zero : α)
    (cap : Nat) (list : List α)
    (hbound : GOPROCESSES * (list.length / GOPROCESSES + 1) ≤ cap) :
    ∃ res, broker work zero cap list = some res := by
  rw [broker]
  by_cases hbig : GOPROCESSES * 2 < list.length ∧ 1 < GOPROCESSES
  · rw [if_pos hbig, broker_slices zero cap list hbound]
    exact ⟨_, rfl⟩
  · rw [if_neg hbig]
    exact ⟨_, rfl⟩

/-- Whenever the backing array's capacity covers all slice bounds
(`GOPROCESSES * groupSize ≤ cap`), the parallel fan-out path of the
broker produces exactly the sequential result: every item processed once
and the zero-filled padding contributing nothing. -/
theorem broker_complete {α β : Type} (work : List α → List β) (zero : α)
    (cap : Nat) (list : List α)
    (hbound : GOPROCESSES * (list.length / GOPROCESSES + 1) ≤ cap)
    (happ : ∀ l1 l2, work (l1 ++ l2) = work l1 ++ work l2)
    (hz : ∀ k, work (List.replicate k zero) = []) :
    broker work zero cap list = some (work list) := by
  rw [broker]
  by_cases hbig : GOPROCESSES * 2 < list.length ∧ 1 < GOPROCESSES
  · rw [if_pos hbig, broker_slices zero cap list hbound]
    dsimp only
    have hflat := flatMap_slices work
      (list ++ List.replicate (cap - list.length) zero)
      (list.length / GOPROCESSES + 1) happ GOPROCESSES
    rw [hflat]
    have hlen : list.length ≤ GOPROCESSES * (list.length / GOPROCESSES + 1) := by
      have hdm := Nat.div_add_mod list.length GOPROCESSES
      have hlt : list.length % GOPROCESSES < GOPROCESSES :=
        Nat.mod_lt _ (by rw [GOPROCESSES]; omega)
      have : GOPROCESSES * (list.length / GOPROCESSES + 1) =
          GOPROCESSES * (list.length / GOPROCESSES) + GOPROCESSES := by
        rw [Nat.mul_succ]
      omega
    rw [List.take_append_eq_append_take, List.take_of_length_le hlen,
      List.take_replicate]
    rw [happ, hz]
    simp
  · rw [if_neg hbig]

/-- C3: the claim says the parallel broker path (taken when
`N > 2*W`, `W = 48`) partitions the list into contiguous groups with no
item dropped, duplicated, or causing an out-of-range partition.  With
`N = 97` items the group size is `97/48 + 1 = 3` and the last slice
bound is `48*3 = 144`, which exceeds the backing array's capacity — 128
under Go's doubling append growth, 97 at the language-guaranteed minimum
— so `list[141:144]` panics with "slice bounds out of range" instead of
producing any result.  (With `N = 200` and capacity 256 all bounds fit,
which is why the scenario highlighted by the spec behaves; see
`broker_complete`.) -/
theorem brokerRead_partition_overrun :
    brokerRead (fun p => some p) 128
      ((List.range 97).map (fun n => [Char.ofNat (33 + n)])) = none ∧
    brokerRead (fun p => some p) 97
      ((List.range 97).map (fun n => [Char.ofNat (33 + n)])) = none := by
  constructor <;> decide

mutual
/-- A filesystem entry: a file with contents, or a directory with its
children, kept in the (lexical) order in which `filepath.Walk` visits
them. -/
inductive FSNode : Type where
  | file : Str → Str → FSNode
  | dir : Str → FSList → FSNode
deriving DecidableEq

inductive FSList : Type where
  | nil : FSList
  | cons : FSNode → FSList → FSList
deriving DecidableEq
end

def FSNode.name : FSNode → Str
  | .file nm _ => nm
  | .dir nm _ => nm

def FSNode.withName : FSNode → Str → FSNode
  | .file _ c, nn => .file nn c
  | .dir _ cs, nn => .dir nn cs

def fsToList : FSList → List FSNode
  | .nil => []
  | .cons n rest => n :: fsToList rest

def fsNames : FSList → List Str
  | .nil => []
  | .cons n rest => n.name :: fsNames rest

/-- `RenameOp` (part_000 lines 70-72).  Paths are modelled as lists of
path components; `filepath.Dir` is `dropLast` and `filepath.Join` is
append. -/
structure RenameOp where
  old : List Str
  new : List Str
deriving DecidableEq

mutual
/-- The rename pairs recorded by the planning walk of `renameDirs`
(part_000 lines 84-112), with paths relative to the directory containing
the node: the walk visits an entry before its children (top-down); a
directory in the ignore set is skipped entirely (`SkipDir`: not renamed,
not descended into) while a file in the ignore set is still considered;
a matching name records (current path, sibling path with the matched
substring replaced throughout). -/
def planNode (t r : Str) (igs : List Str) : FSNode → List RenameOp
  | .file nm _ =>
      if (regexCapture t nm).isSome then [⟨[nm], [newNameOf t r nm]⟩] else []
  | .dir nm cs =>
      if strToLower nm ∈ igs then []
      else
        (if (regexCapture t nm).isSome then [⟨[nm], [newNameOf t r nm]⟩] else []) ++
          (planList t r igs cs).map (fun op => ⟨nm :: op.old, nm :: op.new⟩)

def planList (t r : Str) (igs : List Str) : FSList → List RenameOp
  | .nil => []
  | .cons n rest => planNode t r igs n ++ planList t r igs rest
end

mutual
/-- The tree the rename stage is meant to produce: every matching name
outside ignored subtrees is replaced (`newNameOf`), ignored directories
and their subtrees stay untouched. -/
def renNode (t r : Str) (igs : List Str) : FSNode → FSNode
  | .file nm c => .file (newNameOf t r nm) c
  | .dir nm cs =>
      if strToLower nm ∈ igs then .dir nm cs
      else .dir (newNameOf t r nm) (renList t r igs cs)

def renList (t r : Str) (igs : List Str) : FSList → FSList
  | .nil => .nil
  | .cons n rest => .cons (renNode t r igs n) (renList t r igs rest)
end

def renameFirst : FSList → Str → Str → FSList
  | .nil, _, _ => .nil
  | .cons n rest, x, nn =>
      if n.name = x then .cons (n.withName nn) rest
      else .cons n (renameFirst rest x nn)

def getFirst : FSList → Str → Option FSNode
  | .nil, _ => none
  | .cons n rest, x => if n.name = x then some n else getFirst rest x

def setFirst : FSList → Str → FSNode → FSList
  | .nil, _, _ => .nil
  | .cons n rest, x, n' =>
      if n.name = x then .cons n' rest else .cons n (setFirst rest x n')

/-- Embedding of `os.Rename` along a component path: fails (`none`) when
the source path does not exist or a path component is not a directory;
renaming onto an *existing different* sibling is also modelled as a
failure (Go fails for directories and would clobber files; the claims
under study assume collision-freedom). -/
def renameAt : FSList → List Str → Str → Option FSList
  | _, [], _ => none
  | l, [x], nn =>
      if x ∈ fsNames l then
        if nn = x then some l
        else if nn ∈ fsNames l then none
        else some (renameFirst l x nn)
      else none
  | l, x :: y :: q, nn =>
      match getFirst l x with
      | some (.dir _ cs) =>
          (renameAt cs (y :: q) nn).map (fun cs' => setFirst l x (.dir x cs'))
      | _ => none

/-- Apply one recorded rename, `os.Rename(value.Old, value.New)`
(part_000 line 116); the planner only emits sibling renames, so `New`
always shares `Old`'s parent — anything else is rejected. -/
def applyOp (l : FSList) (op : RenameOp) : Option FSList :=
  match op.new.getLast? with
  | none => none
  | some nn =>
      if op.new.dropLast = op.old.dropLast then renameAt l op.old nn else none

/-- The execution loop of `renameDirs` (part_000 lines 114-120): apply
the recorded renames one after the other (the caller passes them
already reversed); on the first failure stop, keep the filesystem state
reached so far and report the failing operation. -/
def runRenames : FSList → List RenameOp → FSList × Option RenameOp
  | l, [] => (l, none)
  | l, op :: rest =>
      match applyOp l op with
      | some l' => runRenames l' rest
      | none => (l, some op)

/-- Collision-freedom of one entry against a list of later siblings:
original names differ, renamed names differ, and neither renamed name
collides with the other's original name. -/
def pairsOk (t r : Str) (a : FSNode) : FSList → Bool
  | .nil => true
  | .cons b rest =>
      decide (a.name ≠ b.name) &&
      decide (newNameOf t r a.name ≠ newNameOf t r b.name) &&
      decide (newNameOf t r a.name ≠ b.name) &&
      decide (a.name ≠ newNameOf t r b.name) &&
      pairsOk t r a rest

mutual
/-- Deep collision-freedom: inside every directory, sibling names are
distinct before and after renaming. -/
def nodeOk (t r : Str) : FSNode → Bool
  | .file _ _ => true
  | .dir _ cs => listOk t r cs

def listOk (t r : Str) : FSList → Bool
  | .nil => true
  | .cons n rest => nodeOk t r n && pairsOk t r n rest && listOk t r rest
end

theorem newNameOf_of_none {t r nm : Str} (h : regexCapture t nm = none) :
    newNameOf t r nm = nm := by
  rw [newNameOf, h]

theorem mem_fsNames_cons {x : Str} {n : FSNode} {rest : FSList} :
    x ∈ fsNames (.cons n rest) ↔ x = n.name ∨ x ∈ fsNames rest := by
  rw [fsNames, List.mem_cons]

theorem renameAt_cons_of_ne {n : FSNode} {rest : FSList} {x nn : Str} {q : List Str}
    (hx : x ≠ n.name) (hnn : q = [] → nn ≠ n.name) :
    renameAt (.cons n rest) (x :: q) nn =
      (renameAt rest (x :: q) nn).map (fun l' => .cons n l') := by
  match q with
  | [] =>
    have hnn' := hnn rfl
    rw [renameAt, renameAt]
    by_cases hmem : x ∈ fsNames rest
    · have hmem' : x ∈ fsNames (FSList.cons n rest) := mem_fsNames_cons.mpr (Or.inr hmem)
      rw [if_pos hmem', if_pos hmem]
      by_cases heq : nn = x
      · rw [if_pos heq, if_pos heq, Option.map_some']
      · rw [if_neg heq, if_neg heq]
        by_cases hnm : nn ∈ fsNames rest
        · rw [if_pos (mem_fsNames_cons.mpr (Or.inr hnm)), if_pos hnm, Option.map_none']
        · have : nn ∉ fsNames (FSList.cons n rest) := by
            rw [mem_fsNames_cons]
            rintro (h | h)
            · exact hnn' h
            · exact hnm h
          rw [if_neg this, if_neg hnm, Option.map_some']
          rw [renameFirst, if_neg (Ne.symm hx)]
    · have hmem' : x ∉ fsNames (FSList.cons n rest) := by
        rw [mem_fsNames_cons]
        rintro (h | h)
        · exact hx h
        · exact hmem h
      rw [if_neg hmem', if_neg hmem, Option.map_none']
  | y :: q' =>
    rw [renameAt, renameAt, getFirst, if_neg (Ne.symm hx)]
    cases hg : getFirst rest x with
    | none => rfl
    | some m =>
      cases m with
      | file nm c => rfl
      | dir nm cs =>
        dsimp only
        cases hr : renameAt cs (y :: q') nn with
        | none => rfl
        | some cs' =>
          simp only [Option.map_some']
          congr 1
          rw [setFirst, if_neg (Ne.symm hx)]

theorem renameAt_descend {nm : Str} {cs rest : FSList} {q : List Str} {nn : Str}
    (hq : q ≠ []) :
    renameAt (.cons (.dir nm cs) rest) (nm :: q) nn =
      (renameAt cs q nn).map (fun cs' => .cons (.dir nm cs') rest) := by
  match q with
  | y :: q' =>
    rw [renameAt, getFirst]
    have hname : (FSNode.dir nm cs).name = nm := rfl
    rw [if_pos hname]
    dsimp only
    cases hr : renameAt cs (y :: q') nn with
    | none => rfl
    | some cs' =>
      simp only [Option.map_some']
      congr 1
      rw [setFirst, if_pos hname]

theorem applyOp_cons_of_ne {n : FSNode} {rest : FSList} {op : RenameOp}
    (h1 : op.old.head? ≠ some n.name) (h2 : op.new.head? ≠ some n.name) :
    applyOp (.cons n rest) op = (applyOp rest op).map (fun l' => .cons n l') := by
  obtain ⟨old, new⟩ := op
  dsimp only at h1 h2
  rw [applyOp, applyOp]
  dsimp only
  cases hlast : new.getLast? with
  | none => rfl
  | some nn =>
    dsimp only
    by_cases hdl : new.dropLast = old.dropLast
    · rw [if_pos hdl, if_pos hdl]
      match old, h1, hdl with
      | [], h1, hdl => simp [renameAt]
      | x :: q, h1, hdl =>
        have hx : x ≠ n.name := fun hc => h1 (by rw [List.head?_cons, hc])
        have hcond : q = [] → nn ≠ n.name := by
          intro hq
          subst hq
          have hnn : new = [nn] := by
            match new, hlast, hdl with
            | [a], hlast, _ => simpa using hlast
            | a :: b :: l, _, hdl => simp at hdl
            | [], hlast, _ => simp at hlast
          intro hc
          exact h2 (by rw [hnn, List.head?_cons, hc])
        rw [renameAt_cons_of_ne hx hcond]
    · rw [if_neg hdl, if_neg hdl]
      rfl

theorem applyOp_descend {nm : Str} {cs rest : FSList} {op : RenameOp}
    (hold : op.old ≠ []) (hnew : op.new ≠ []) :
    applyOp (.cons (.dir nm cs) rest) ⟨nm :: op.old, nm :: op.new⟩ =
      (applyOp cs op).map (fun cs' => .cons (.dir nm cs') rest) := by
  obtain ⟨old, new⟩ := op
  dsimp only at hold hnew
  match old, hold, new, hnew with
  | x :: xs, _, y :: ys, _ =>
    rw [applyOp, applyOp]
    dsimp only
    rw [List.getLast?_cons_cons]
    cases hlast : (y :: ys).getLast? with
    | none => simp at hlast
    | some nn =>
      dsimp only
      have hdrop : (nm :: y :: ys).dropLast = nm :: (y :: ys).dropLast := rfl
      have hdrop2 : (nm :: x :: xs).dropLast = nm :: (x :: xs).dropLast := rfl
      by_cases hcond : (y :: ys).dropLast = (x :: xs).dropLast
      · rw [if_pos (by rw [hdrop, hdrop2, hcond]), if_pos hcond]
        rw [renameAt_descend (by simp)]
      · have hneg : ¬ (nm :: y :: ys).dropLast = (nm :: x :: xs).dropLast := by
          rw [hdrop, hdrop2]
          intro hc
          injection hc with hc1 hc2
          exact hcond hc2
        rw [if_neg hneg, if_neg hcond]
        rfl

theorem runRenames_append_ok {l l1 : FSList} {ops1 : List RenameOp}
    (ops2 : List RenameOp) (h : runRenames l ops1 = (l1, none)) :
    runRenames l (ops1 ++ ops2) = runRenames l1 ops2 := by
  induction ops1 generalizing l with
  | nil =>
    rw [runRenames] at h
    have h1 : l = l1 := congrArg Prod.fst h
    subst h1
    rfl
  | cons op rest ih =>
    rw [List.cons_append, runRenames]
    rw [runRenames] at h
    cases happ : applyOp l op with
    | none =>
      rw [happ] at h
      dsimp only at h
      exact absurd (congrArg Prod.snd h) (by simp)
    | some l' =>
      rw [happ] at h
      dsimp only at h
      exact ih h

theorem runRenames_cons_of_ne {n : FSNode} {rest rest' : FSList} {ops : List RenameOp}
    (h : ∀ op ∈ ops, op.old.head? ≠ some n.name ∧ op.new.head? ≠ some n.name)
    (hrun : runRenames rest ops = (rest', none)) :
    runRenames (.cons n rest) ops = (.cons n rest', none) := by
  induction ops generalizing rest with
  | nil =>
    rw [runRenames] at hrun
    have h1 : rest = rest' := congrArg Prod.fst hrun
    subst h1
    rfl
  | cons op ops' ih =>
    rw [runRenames] at hrun ⊢
    obtain ⟨h1, h2⟩ := h op (List.mem_cons_self op ops')
    rw [applyOp_cons_of_ne h1 h2]
    cases happ : applyOp rest op with
    | none =>
      rw [happ] at hrun
      dsimp only at hrun
      exact absurd (congrArg Prod.snd hrun) (by simp)
    | some l' =>
      rw [happ] at hrun
      dsimp only at hrun
      simp only [Option.map_some']
      exact ih (fun o ho => h o (List.mem_cons_of_mem op ho)) hrun

theorem runRenames_descend {nm : Str} {cs cs' rest : FSList} {ops : List RenameOp}
    (hwf : ∀ op ∈ ops, op.old ≠ [] ∧ op.new ≠ [])
    (hrun : runRenames cs ops = (cs', none)) :
    runRenames (.cons (.dir nm cs) rest)
        (ops.map (fun op => ⟨nm :: op.old, nm :: op.new⟩)) =
      (.cons (.dir nm cs') rest, none) := by
  induction ops generalizing cs with
  | nil =>
    rw [runRenames] at hrun
    have h1 : cs = cs' := congrArg Prod.fst hrun
    subst h1
    rfl
  | cons op ops' ih =>
    rw [List.map_cons, runRenames]
    rw [runRenames] at hrun
    obtain ⟨h1, h2⟩ := hwf op (List.mem_cons_self op ops')
    rw [applyOp_descend h1 h2]
    cases happ : applyOp cs op with
    | none =>
      rw [happ] at hrun
      dsimp only at hrun
      exact absurd (congrArg Prod.snd hrun) (by simp)
    | some l' =>
      rw [happ] at hrun
      dsimp only at hrun
      simp only [Option.map_some']
      exact ih (fun o ho => hwf o (List.mem_cons_of_mem op ho)) hrun

mutual
theorem planNode_wf (t r : Str) (igs : List Str) : ∀ (n : FSNode), ∀ op ∈ planNode t r igs n,
    op.old ≠ [] ∧ op.new ≠ [] ∧ op.new.dropLast = op.old.dropLast ∧
    op.old.head? = some n.name ∧
    (op.new.head? = some n.name ∨ op.new.head? = some (newNameOf t r n.name)) := by
  intro n
  match n with
  | .file nm c =>
    intro op hop
    rw [planNode] at hop
    by_cases hm : (regexCapture t nm).isSome
    · rw [if_pos hm] at hop
      simp only [List.mem_singleton] at hop
      subst hop
      exact ⟨by simp, by simp, rfl, rfl, Or.inr rfl⟩
    · rw [if_neg hm] at hop
      simp at hop
  | .dir nm cs =>
    intro op hop
    rw [planNode] at hop
    by_cases hig : strToLower nm ∈ igs
    · rw [if_pos hig] at hop
      simp at hop
    · rw [if_neg hig, List.mem_append] at hop
      cases hop with
      | inl hself =>
        by_cases hm : (regexCapture t nm).isSome
        · rw [if_pos hm] at hself
          simp only [List.mem_singleton] at hself
          subst hself
          exact ⟨by simp, by simp, rfl, rfl, Or.inr rfl⟩
        · rw [if_neg hm] at hself
          simp at hself
      | inr hchild =>
        rw [List.mem_map] at hchild
        obtain ⟨op', hop', rfl⟩ := hchild
        obtain ⟨ho1, ho2, ho3, -⟩ := planList_wf t r igs cs op' hop'
        refine ⟨by simp, by simp, ?_, rfl, Or.inl rfl⟩
        dsimp only
        rw [List.dropLast_cons_of_ne_nil ho2, List.dropLast_cons_of_ne_nil ho1, ho3]

theorem planList_wf (t r : Str) (igs : List Str) : ∀ (l : FSList), ∀ op ∈ planList t r igs l,
    op.old ≠ [] ∧ op.new ≠ [] ∧ op.new.dropLast = op.old.dropLast ∧
    ∃ n ∈ fsToList l, op.old.head? = some n.name ∧
      (op.new.head? = some n.name ∨ op.new.head? = some (newNameOf t r n.name)) := by
  intro l
  match l with
  | .nil =>
    intro op hop
    rw [planList] at hop
    simp at hop
  | .cons n rest =>
    intro op hop
    rw [planList, List.mem_append] at hop
    cases hop with
    | inl h =>
      obtain ⟨h1, h2, h3, h4, h5⟩ := planNode_wf t r igs n op h
      exact ⟨h1, h2, h3, n, by rw [fsToList]; exact List.mem_cons_self .., h4, h5⟩
    | inr h =>
      obtain ⟨h1, h2, h3, m, hm, h4, h5⟩ := planList_wf t r igs rest op h
      exact ⟨h1, h2, h3, m, by rw [fsToList]; exact List.mem_cons_of_mem n hm, h4, h5⟩
end

theorem pairsOk_spec {t r : Str} {a : FSNode} : ∀ (l : FSList), pairsOk t r a l = true →
    ∀ b ∈ fsToList l, a.name ≠ b.name ∧ newNameOf t r a.name ≠ newNameOf t r b.name ∧
      newNameOf t r a.name ≠ b.name ∧ a.name ≠ newNameOf t r b.name := by
  intro l
  match l with
  | .nil =>
    intro _ b hb
    rw [fsToList] at hb
    simp at hb
  | .cons c rest =>
    intro h b hb
    rw [pairsOk] at h
    simp only [Bool.and_eq_true, decide_eq_true_eq] at h
    obtain ⟨⟨⟨⟨hab, hnn⟩, hnb⟩, hbn⟩, hrest⟩ := h
    rw [fsToList] at hb
    rcases List.mem_cons.mp hb with rfl | hb'
    · exact ⟨hab, hnn, hnb, hbn⟩
    · exact pairsOk_spec rest hrest b hb'

theorem listOk_cons {t r : Str} {n : FSNode} {rest : FSList}
    (h : listOk t r (.cons n rest) = true) :
    nodeOk t r n = true ∧ pairsOk t r n rest = true ∧ listOk t r rest = true := by
  rw [listOk] at h
  simp only [Bool.and_eq_true] at h
  exact ⟨h.1.1, h.1.2, h.2⟩

theorem renNode_name (t r : Str) (igs : List Str) (n : FSNode) :
    (renNode t r igs n).name = n.name ∨ (renNode t r igs n).name = newNameOf t r n.name := by
  match n with
  | .file nm c => exact Or.inr rfl
  | .dir nm cs =>
    rw [renNode]
    by_cases hig : strToLower nm ∈ igs
    · rw [if_pos hig]
      exact Or.inl rfl
    · rw [if_neg hig]
      exact Or.inr rfl

theorem fsNames_renList {t r : Str} {igs : List Str} : ∀ (l : FSList) {x : Str},
    x ∈ fsNames (renList t r igs l) →
    ∃ n ∈ fsToList l, x = n.name ∨ x = newNameOf t r n.name := by
  intro l
  match l with
  | .nil =>
    intro x hx
    rw [renList, fsNames] at hx
    simp at hx
  | .cons n rest =>
    intro x hx
    rw [renList, fsNames, List.mem_cons] at hx
    rcases hx with hx | hx
    · refine ⟨n, by rw [fsToList]; exact List.mem_cons_self .., ?_⟩
      rcases renNode_name t r igs n with h | h
      · exact Or.inl (hx.trans h)
      · exact Or.inr (hx.trans h)
    · obtain ⟨m, hm, hh⟩ := fsNames_renList rest hx
      exact ⟨m, by rw [fsToList]; exact List.mem_cons_of_mem n hm, hh⟩

theorem withName_self (n : FSNode) : n.withName n.name = n := by
  match n with
  | .file nm c => rfl
  | .dir nm cs => rfl

theorem exec_self_rename {n : FSNode} {rest : FSList} (t r : Str)
    (hres : newNameOf t r n.name = n.name ∨ newNameOf t r n.name ∉ fsNames rest) :
    runRenames (.cons n rest)
      (if (regexCapture t n.name).isSome then [⟨[n.name], [newNameOf t r n.name]⟩] else []) =
      (.cons (n.withName (newNameOf t r n.name)) rest, none) := by
  by_cases hm : (regexCapture t n.name).isSome
  · rw [if_pos hm, runRenames]
    have happ : applyOp (.cons n rest) ⟨[n.name], [newNameOf t r n.name]⟩ =
        some (.cons (n.withName (newNameOf t r n.name)) rest) := by
      rw [applyOp]
      dsimp only
      simp only [List.getLast?_singleton, List.dropLast_single]
      rw [if_pos trivial, renameAt]
      have hmem : n.name ∈ fsNames (.cons n rest) := mem_fsNames_cons.mpr (Or.inl rfl)
      rw [if_pos hmem]
      by_cases heq : newNameOf t r n.name = n.name
      · rw [if_pos heq, heq, withName_self]
      · rw [if_neg heq]
        have hnm : newNameOf t r n.name ∉ fsNames (.cons n rest) := by
          rw [mem_fsNames_cons]
          rintro (hc | hc)
          · exact heq hc
          · rcases hres with h | h
            · exact heq h
            · exact h hc
        rw [if_neg hnm, renameFirst, if_pos rfl]
    rw [happ]
    dsimp only
    rw [runRenames]
  · rw [if_neg hm, runRenames]
    have hid : newNameOf t r n.name = n.name :=
      newNameOf_of_none (Option.not_isSome_iff_eq_none.mp hm)
    rw [hid, withName_self]

theorem reverse_if_singleton (c : Prop) [Decidable c] (op : RenameOp) :
    (if c then [op] else []).reverse = (if c then [op] else []) := by
  by_cases h : c <;> simp [h]

mutual
theorem execNode (t r : Str) (igs : List Str) : ∀ (n : FSNode) (rest : FSList),
    nodeOk t r n = true →
    (newNameOf t r n.name = n.name ∨ newNameOf t r n.name ∉ fsNames rest) →
    runRenames (.cons n rest) (planNode t r igs n).reverse =
      (.cons (renNode t r igs n) rest, none) := by
  intro n rest hok hres
  match n with
  | .file nm c =>
    rw [planNode, renNode, reverse_if_singleton]
    exact exec_self_rename t r hres
  | .dir nm cs =>
    rw [planNode, renNode]
    by_cases hig : strToLower nm ∈ igs
    · rw [if_pos hig, if_pos hig, List.reverse_nil, runRenames]
    · rw [if_neg hig, if_neg hig, List.reverse_append]
      have hstep1 : runRenames (.cons (.dir nm cs) rest)
          ((planList t r igs cs).map
            (fun op => ⟨nm :: op.old, nm :: op.new⟩)).reverse =
          (.cons (.dir nm (renList t r igs cs)) rest, none) := by
        rw [← List.map_reverse]
        apply runRenames_descend
        · intro op hop
          rw [List.mem_reverse] at hop
          obtain ⟨h1, h2, -⟩ := planList_wf t r igs cs op hop
          exact ⟨h1, h2⟩
        · exact execList t r igs cs (by rw [nodeOk] at hok; exact hok)
      rw [runRenames_append_ok _ hstep1, reverse_if_singleton]
      exact exec_self_rename t r hres

theorem execList (t r : Str) (igs : List Str) : ∀ (l : FSList),
    listOk t r l = true →
    runRenames l (planList t r igs l).reverse = (renList t r igs l, none) := by
  intro l hok
  match l with
  | .nil => rw [planList, renList, List.reverse_nil, runRenames]
  | .cons n rest =>
    obtain ⟨hn, hp, hr⟩ := listOk_cons hok
    rw [planList, renList, List.reverse_append]
    have hstep1 : runRenames (.cons n rest) (planList t r igs rest).reverse =
        (.cons n (renList t r igs rest), none) := by
      apply runRenames_cons_of_ne
      · intro op hop
        rw [List.mem_reverse] at hop
        obtain ⟨-, -, -, m, hm, h4, h5⟩ := planList_wf t r igs rest op hop
        obtain ⟨hab, hnn, hnb, hbn⟩ := pairsOk_spec rest hp m hm
        constructor
        · rw [h4]
          intro hc
          exact hab (Option.some.inj hc).symm
        · rcases h5 with h5 | h5 <;> rw [h5] <;> intro hc
          · exact hab (Option.some.inj hc).symm
          · exact hbn (Option.some.inj hc).symm
      · exact execList t r igs rest hr
    rw [runRenames_append_ok _ hstep1]
    apply execNode t r igs n (renList t r igs rest) hn
    by_cases heq : newNameOf t r n.name = n.name
    · exact Or.inl heq
    · right
      intro hc
      obtain ⟨m, hm, hcase⟩ := fsNames_renList rest hc
      obtain ⟨hab, hnn, hnb, hbn⟩ := pairsOk_spec rest hp m hm
      rcases hcase with h | h
      · exact hnb h
      · exact hnn h
end

/-- C2: for every collision-free tree (in particular one where a nested
chain `a/b/c` of entries all match), executing the planned renames in
reverse discovery order (which is what `runRenames` receives) succeeds
with no "path does not exist" error — every operation's source path
still exists when it is applied — and the resulting tree is exactly the
intended one: every matching name replaced with children correctly
nested under their renamed parents. -/
theorem renames_reverse_order_safe (t r : Str) (igs : List Str) (root : FSNode)
    (hok : nodeOk t r root = true) :
    runRenames (.cons root .nil) (planNode t r igs root).reverse =
      (.cons (renNode t r igs root) .nil, none) :=
  execNode t r igs root .nil hok (Or.inr (by rw [fsNames]; simp))

theorem renames_reverse_order_safe_witness :
    runRenames
        (.cons (.dir ("olda".toList) (.cons (.dir ("oldb".toList)
          (.cons (.file ("oldc.txt".toList) ("hello".toList)) .nil)) .nil)) .nil)
        (planNode ("old".toList) ("new".toList) [".vs".toList, ".git".toList]
          (.dir ("olda".toList) (.cons (.dir ("oldb".toList)
            (.cons (.file ("oldc.txt".toList) ("hello".toList)) .nil)) .nil))).reverse =
      (.cons (renNode ("old".toList) ("new".toList) [".vs".toList, ".git".toList]
        (.dir ("olda".toList) (.cons (.dir ("oldb".toList)
          (.cons (.file ("oldc.txt".toList) ("hello".toList)) .nil)) .nil))) .nil, none) :=
  renames_reverse_order_safe ("old".toList) ("new".toList)
    [".vs".toList, ".git".toList]
    (.dir ("olda".toList) (.cons (.dir ("oldb".toList)
      (.cons (.file ("oldc.txt".toList) ("hello".toList)) .nil)) .nil))
    (by decide)

/-- Embedding of `filepath.Ext`: the suffix starting at the final dot,
empty when there is no dot. -/
def fileExt (nm : Str) : Str :=
  if '.' ∈ nm then '.' :: (nm.reverse.takeWhile (· != '.')).reverse else []

mutual
/-- The file-collection walk of `replaceContents` (part_000 lines
130-158): an ignored directory is skipped entirely, directories
themselves are never read, and a file is kept when its lowercased
extension is a (dot-prefixed) member of the extension set and nonempty;
each kept file contributes its path and contents (the read stage —
reading from the tree always succeeds). -/
def walkFilesNode (igs exts : List Str) (par : List Str) : FSNode → List (List Str × Str)
  | .file nm c =>
      if fileExt (strToLower nm) ∈ exts ∧ fileExt (strToLower nm) ≠ [] then
        [(par ++ [nm], c)]
      else []
  | .dir nm cs =>
      if strToLower nm ∈ igs then []
      else walkFilesList igs exts (par ++ [nm]) cs

def walkFilesList (igs exts : List Str) (par : List Str) : FSList → List (List Str × Str)
  | .nil => []
  | .cons n rest =>
      walkFilesNode igs exts par n ++ walkFilesList igs exts par rest
end

mutual
/-- The write stage's net effect on the tree once all three broker
stages have completed: every file the walk collects (eligible extension,
not under an ignored directory) gets `update`'s transformation of its
contents — all literal occurrences of the captured substring replaced
when the contents match, untouched otherwise (this is `newNameOf`
applied to the contents); every other file keeps its contents.
`replaceContents` applies this only after `brokerRead`, `brokerUpdate`
and `brokerWrite` have all returned (a slice-bound overrun in any of
them panics instead); per record the write is `update_writes_iff`'s
store update at the file's unique path (`applyWrites`). -/
def updNode (t r : Str) (igs exts : List Str) : FSNode → FSNode
  | .file nm c =>
      if fileExt (strToLower nm) ∈ exts ∧ fileExt (strToLower nm) ≠ [] then
        .file nm (newNameOf t r c)
      else .file nm c
  | .dir nm cs =>
      if strToLower nm ∈ igs then .dir nm cs
      else .dir nm (updList t r igs exts cs)

def updList (t r : Str) (igs exts : List Str) : FSList → FSList
  | .nil => .nil
  | .cons n rest => .cons (updNode t r igs exts n) (updList t r igs exts rest)
end

/-- Embedding of `replaceContents` (part_000 lines 130-165): walk the
tree collecting the eligible files (joined path and contents), then fan
out `brokerRead` over the collected paths — fetching a collected path
from the quiescent tree returns its walked contents — `brokerUpdate`
over the loaded records and `brokerWrite` over the write records.
`capOf n` is the backing capacity the runtime gives a list of length `n`
built by repeated `append` (Go guarantees only `n ≤ capOf n`); a
slice-bound overrun in any stage panics the run (`none`).  When all
three stages complete, the written records' net effect on the tree is
`updList`. -/
def replaceContents (capOf : Nat → Nat) (find repl : Str) (igs extSet : List Str)
    (fs1 : FSList) : Option FSList :=
  let files := walkFilesList igs extSet [] fs1
  let fetch := fun p => (files.map (fun pc => (joinPath pc.1, pc.2))).lookup p
  match brokerRead fetch (capOf files.length) (files.map (fun pc => joinPath pc.1)) with
  | none => none
  | some reads =>
    match brokerUpdate find repl (capOf reads.length) reads with
    | none => none
    | some writes =>
      match brokerWrite (capOf writes.length) writes with
      | none => none
      | some _ => some (updList find repl igs extSet fs1)

set_option linter.unusedVariables false in
/-- Embedding of `run` (part_000 lines 46-68) driving the tool on a root
entry: build the ignore and extension sets, plan and execute the
directory renames first (in reverse discovery order), and only if that
stage succeeds run `replaceContents` under the (possibly renamed) root;
a rename failure is returned as the final result, with the tree as it
stood at the failure, the content stage never running; a broker panic in
the content stage is `none`.  The `caseSensitive` flag is received, as
in the Go signature, but never consulted. -/
def run (capOf : Nat → Nat) (find repl ignoredirs exts : Str) (caseSensitive : Bool)
    (root : FSNode) : Option (FSList × Option RenameOp) :=
  let igs := splitToMap (strToLower ignoredirs) []
  let extSet := splitToMap exts ['.']
  match runRenames (.cons root .nil) (planNode find repl igs root).reverse with
  | (fs1, some e) => some (fs1, some e)
  | (fs1, none) =>
      (replaceContents capOf find repl igs extSet fs1).map (fun l => (l, none))

/-- When the capacity `capOf` the runtime grants each appended list
covers the partition's slice bounds, all three broker stages complete
and the content pipeline succeeds with `updList`'s net effect. -/
theorem replaceContents_complete (capOf : Nat → Nat)
    (hcap : ∀ n, GOPROCESSES * (n / GOPROCESSES + 1) ≤ capOf n)
    (find repl : Str) (igs extSet : List Str) (fs1 : FSList) :
    replaceContents capOf find repl igs extSet fs1 =
      some (updList find repl igs extSet fs1) := by
  rw [replaceContents]
  generalize walkFilesList igs extSet [] fs1 = files
  obtain ⟨reads, hR⟩ := broker_isSome
    (readFiles (fun p => (files.map (fun pc => (joinPath pc.1, pc.2))).lookup p)) []
    (capOf files.length) (files.map (fun pc => joinPath pc.1))
    (by rw [List.length_map]; exact hcap _)
  have hR2 : brokerRead (fun p => (files.map (fun pc => (joinPath pc.1, pc.2))).lookup p)
      (capOf files.length) (files.map (fun pc => joinPath pc.1)) = some reads := hR
  rw [hR2]
  dsimp only
  obtain ⟨writes, hU⟩ := broker_isSome (update find repl) (⟨[], []⟩ : ReadOp)
    (capOf reads.length) reads (hcap _)
  have hU2 : brokerUpdate find repl (capOf reads.length) reads = some writes := hU
  rw [hU2]
  dsimp only
  obtain ⟨final, hW⟩ := broker_isSome (fun l => l) (⟨[], []⟩ : WriteOp)
    (capOf writes.length) writes (hcap _)
  have hW2 : brokerWrite (capOf writes.length) writes = some final := hW
  rw [hW2]

/-- C9: the case-sensitive flag is dead: for every input, `run` produces
the identical observable result whether the flag is set or not —
matching is always case-insensitive regardless. -/
theorem run_ignores_case_flag (capOf : Nat → Nat) (find repl ignoredirs exts : Str)
    (root : FSNode) :
    run capOf find repl ignoredirs exts true root =
      run capOf find repl ignoredirs exts false root := rfl

/-- C8: if an individual rename fails, the whole run aborts: the failing
operation is propagated as the run's error, the operations that were
still pending are not attempted and the content stage never runs, while
the renames already applied (the state `fs1`) are kept — no rollback. -/
theorem rename_failure_aborts (capOf : Nat → Nat) (find repl ignoredirs exts : Str)
    (cs : Bool)
    (root : FSNode) (ops1 ops2 : List RenameOp) (op : RenameOp) (fs1 : FSList)
    (hplan : (planNode find repl (splitToMap (strToLower ignoredirs) []) root).reverse =
      ops1 ++ op :: ops2)
    (h1 : runRenames (.cons root .nil) ops1 = (fs1, none))
    (h2 : applyOp fs1 op = none) :
    runRenames (.cons root .nil) (ops1 ++ op :: ops2) = (fs1, some op) ∧
    run capOf find repl ignoredirs exts cs root = some (fs1, some op) := by
  have hrun : runRenames (.cons root .nil) (ops1 ++ op :: ops2) = (fs1, some op) := by
    rw [runRenames_append_ok _ h1, runRenames, h2]
  refine ⟨hrun, ?_⟩
  rw [run, hplan, hrun]

theorem rename_failure_aborts_witness :
    runRenames
        (.cons (.dir ("r".toList) (.cons (.file ("newa".toList) ([]))
          (.cons (.file ("olda".toList) ([])) .nil))) .nil)
        ([] ++ (⟨["r".toList, "olda".toList], ["r".toList, "newa".toList]⟩ : RenameOp) :: []) =
      (.cons (.dir ("r".toList) (.cons (.file ("newa".toList) ([]))
        (.cons (.file ("olda".toList) ([])) .nil))) .nil,
       some ⟨["r".toList, "olda".toList], ["r".toList, "newa".toList]⟩) ∧
    run (fun n => n) ("old".toList) ("new".toList) (".vs,.git".toList) ("txt".toList)
        false
        (.dir ("r".toList) (.cons (.file ("newa".toList) ([]))
          (.cons (.file ("olda".toList) ([])) .nil))) =
      some (.cons (.dir ("r".toList) (.cons (.file ("newa".toList) ([]))
        (.cons (.file ("olda".toList) ([])) .nil))) .nil,
       some ⟨["r".toList, "olda".toList], ["r".toList, "newa".toList]⟩) :=
  rename_failure_aborts (fun n => n) ("old".toList) ("new".toList) (".vs,.git".toList)
    ("txt".toList) false
    (.dir ("r".toList) (.cons (.file ("newa".toList) ([]))
      (.cons (.file ("olda".toList) ([])) .nil)))
    [] [] ⟨["r".toList, "olda".toList], ["r".toList, "newa".toList]⟩
    (.cons (.dir ("r".toList) (.cons (.file ("newa".toList) ([]))
      (.cons (.file ("olda".toList) ([])) .nil))) .nil)
    (by decide) (by decide) (by decide)

/-- C10: ignore-set membership is only checked for directories.  A
regular file whose lowercase name is in the ignore set is processed like
any other file — planned for renaming exactly when its name matches, and
collected for content replacement exactly when its extension is eligible
— whereas a directory with such a name is skipped entirely by both
walks, together with its whole subtree. -/
theorem ignore_only_skips_dirs (t r : Str) (igs exts : List Str) (par : List Str)
    (nm c : Str) (cs : FSList) (hig : strToLower nm ∈ igs) :
    planNode t r igs (.file nm c) =
      (if (regexCapture t nm).isSome then [⟨[nm], [newNameOf t r nm]⟩] else []) ∧
    walkFilesNode igs exts par (.file nm c) =
      (if fileExt (strToLower nm) ∈ exts ∧ fileExt (strToLower nm) ≠ [] then
        [(par ++ [nm], c)] else []) ∧
    planNode t r igs (.dir nm cs) = [] ∧
    walkFilesNode igs exts par (.dir nm cs) = [] := by
  refine ⟨rfl, rfl, ?_, ?_⟩
  · rw [planNode, if_pos hig]
  · rw [walkFilesNode, if_pos hig]

theorem ignore_only_skips_dirs_witness :
    planNode ("git".toList) ("hub".toList) [".vs".toList, ".git".toList]
        (.file (".git".toList) ("data".toList)) =
      (if (regexCapture ("git".toList) (".git".toList)).isSome then
        [⟨[".git".toList], [newNameOf ("git".toList) ("hub".toList) (".git".toList)]⟩]
       else []) ∧
    walkFilesNode [".vs".toList, ".git".toList] [".git".toList] []
        (.file (".git".toList) ("data".toList)) =
      (if fileExt (strToLower (".git".toList)) ∈ [".git".toList] ∧
          fileExt (strToLower (".git".toList)) ≠ [] then
        [(([] : List Str) ++ [".git".toList], "data".toList)] else []) ∧
    planNode ("git".toList) ("hub".toList) [".vs".toList, ".git".toList]
      (.dir (".git".toList) (.cons (.file ("x.git".toList) ("git".toList)) .nil)) = [] ∧
    walkFilesNode [".vs".toList, ".git".toList] [".git".toList] []
      (.dir (".git".toList) (.cons (.file ("x.git".toList) ("git".toList)) .nil)) = [] :=
  ignore_only_skips_dirs ("git".toList) ("hub".toList)
    [".vs".toList, ".git".toList] [".git".toList] [] (".git".toList) ("data".toList)
    (.cons (.file ("x.git".toList) ("git".toList)) .nil) (by decide)

theorem strIndex_minimal {s t : Str} {p : Nat} (h : strIndex s t = some p) :
    ∀ k, t.isPrefixOf (s.drop k) = true → p ≤ k := by
  induction s generalizing p with
  | nil =>
    intro k hk
    rw [strIndex] at h
    by_cases hp : t.isPrefixOf ([] : Str)
    · simp only [hp, if_pos] at h
      obtain rfl : (0 : Nat) = p := Option.some.inj h
      omega
    · simp [hp] at h
  | cons c s' ih =>
    intro k hk
    rw [strIndex] at h
    by_cases hp : t.isPrefixOf (c :: s')
    · simp only [hp, if_pos] at h
      obtain rfl : (0 : Nat) = p := Option.some.inj h
      omega
    · simp only [hp, Bool.false_eq_true, if_false, Option.map_eq_some'] at h
      obtain ⟨q, hq, rfl⟩ := h
      match k with
      | 0 =>
        rw [List.drop_zero] at hk
        exact absurd hk hp
      | k' + 1 =>
        rw [List.drop_succ_cons] at hk
        have := ih hq k' hk
        omega

theorem strLastIndex_le {s t : Str} {j : Nat} (h : strLastIndex s t = some j) :
    j ≤ s.length := by
  induction s generalizing j with
  | nil =>
    rw [strLastIndex] at h
    by_cases hp : t.isPrefixOf ([] : Str)
    · simp only [hp, if_pos] at h
      obtain rfl : (0 : Nat) = j := Option.some.inj h
      simp
    · simp [hp] at h
  | cons c s' ih =>
    rw [strLastIndex] at h
    cases hl : strLastIndex s' t with
    | some k =>
      rw [hl] at h
      obtain rfl : k + 1 = j := Option.some.inj h
      have := ih hl
      simp only [List.length_cons]
      omega
    | none =>
      rw [hl] at h
      by_cases hp : t.isPrefixOf (c :: s')
      · simp only [hp, if_pos] at h
        obtain rfl : (0 : Nat) = j := Option.some.inj h
        omega
      · simp [hp] at h

theorem occ_getElem {t L : Str} {i k : Nat}
    (h : t.isPrefixOf (L.drop i) = true) (hk : k < t.length) :
    L[i + k]? = t[k]? := by
  rw [List.isPrefixOf_iff_prefix, List.prefix_iff_eq_take] at h
  calc L[i + k]? = (L.drop i)[k]? := (List.getElem?_drop L i k).symm
    _ = ((L.drop i).take t.length)[k]? := (List.getElem?_take_of_lt hk).symm
    _ = t[k]? := by rw [← h]

theorem isPrefixOf_of_getElem {t L : Str} {i : Nat}
    (h : ∀ k, k < t.length → L[i + k]? = t[k]?) : t.isPrefixOf (L.drop i) = true := by
  rw [List.isPrefixOf_iff_prefix, List.prefix_iff_eq_take]
  apply List.ext_getElem?
  intro n
  by_cases hn : n < t.length
  · rw [List.getElem?_take_of_lt hn, List.getElem?_drop, h n hn]
  · rw [List.getElem?_eq_none (by omega)]
    rcases Nat.lt_or_ge n ((L.drop i).take t.length).length with hlt | hge
    · rw [List.length_take] at hlt
      omega
    · rw [List.getElem?_eq_none hge]

theorem regexCapture_occ {t s cap : Str} (h : regexCapture t s = some cap) :
    ∃ j, (strToLower t).isPrefixOf ((strToLower s).drop j) = true ∧
      cap = (s.drop j).take (strToLower t).length := by
  rw [regexCapture] at h
  cases hidx : strIndex (strToLower s) (strToLower t) with
  | none =>
    rw [hidx] at h
    exact absurd h (by simp)
  | some j0 =>
    rw [hidx] at h
    dsimp only at h
    rw [capturePos] at h
    cases hl : strLastIndex (((strToLower s).drop (runStart (strToLower s) j0)).takeWhile
        (· != '\n')) (strToLower t) with
    | none =>
      rw [hl] at h
      dsimp only at h
      exact ⟨j0, strIndex_isPrefixOf hidx, (Option.some.inj h).symm⟩
    | some k =>
      rw [hl] at h
      dsimp only at h
      refine ⟨runStart (strToLower s) j0 + k, ?_, (Option.some.inj h).symm⟩
      have hseg := strLastIndex_isPrefixOf hl
      have hkle : k ≤ (((strToLower s).drop (runStart (strToLower s) j0)).takeWhile
          (· != '\n')).length := strLastIndex_le hl
      obtain ⟨T, hT⟩ := List.takeWhile_prefix
        (l := (strToLower s).drop (runStart (strToLower s) j0)) (· != '\n')
      have hdec : ((strToLower s).drop (runStart (strToLower s) j0)).drop k =
          (((strToLower s).drop (runStart (strToLower s) j0)).takeWhile
            (· != '\n')).drop k ++ T := by
        conv_lhs => rw [← hT]
        rw [List.drop_append_of_le_length hkle]
      have hpre : (strToLower t) <+:
          ((strToLower s).drop (runStart (strToLower s) j0)).drop k := by
        rw [hdec]
        exact (List.isPrefixOf_iff_prefix.mp hseg).trans (List.prefix_append _ T)
      rw [List.drop_drop] at hpre
      rw [List.isPrefixOf_iff_prefix]
      exact hpre

theorem regexCapture_lower_eq {t u cap : Str}
    (hlt : strToLower t = t) (hlu : strToLower u = u)
    (h : regexCapture t u = some cap) : cap = t := by
  obtain ⟨j, hocc, hcap⟩ := regexCapture_occ h
  rw [hlt, hlu] at hocc
  rw [List.isPrefixOf_iff_prefix, List.prefix_iff_eq_take] at hocc
  rw [hcap, hlt, ← hocc]

/-- Core seam lemma: replacing every literal occurrence of a lowercase
term inside a lowercase string by a replacement that is nonempty and
shares no character (case-insensitively) with the term leaves no
case-insensitive occurrence of the term — neither a leftover occurrence
nor one formed across a replacement boundary. -/
theorem strReplace_no_occ : ∀ (N : Nat) (t r u : Str), t ≠ [] → r ≠ [] →
    strToLower t = t → strToLower u = u →
    (∀ c ∈ strToLower r, c ∉ t) → u.length ≤ N →
    ∀ i, ¬ (t.isPrefixOf ((strToLower (strReplace u t r)).drop i) = true) := by
  intro N
  induction N with
  | zero =>
    intro t r u ht _ _ _ _ hlen i hocc
    have hu : u = [] := List.length_eq_zero.mp (Nat.le_zero.mp hlen)
    subst hu
    have hidx : strIndex [] t = none := by
      rw [strIndex]
      have hpf : t.isPrefixOf ([] : Str) = false := by
        match t, ht with
        | a :: as, _ => rfl
      simp [hpf]
    rw [strReplace_of_none ht hidx] at hocc
    simp only [strToLower, List.map_nil, List.drop_nil] at hocc
    match t, ht with
    | a :: as, _ => simp at hocc
  | succ N ih =>
    intro t r u ht hr hlt hlu hdisj hlen i hocc
    have hlu' : List.map Char.toLower u = u := hlu
    cases hidx : strIndex u t with
    | none =>
      rw [strReplace_of_none ht hidx, hlu] at hocc
      have hs := strIndex_isSome_of_isPrefixOf hocc
      rw [hidx] at hs
      simp at hs
    | some p =>
      have hbound := strIndex_bound hidx
      have htpos : 0 < t.length := List.length_pos.mpr ht
      have hRpos : 0 < (strToLower r).length := by
        rw [strToLower, List.length_map]
        exact List.length_pos.mpr hr
      rw [strReplace_of_some ht hidx] at hocc
      have hlow : strToLower (u.take p ++ r ++ strReplace (u.drop (p + t.length)) t r) =
          u.take p ++ strToLower r ++ strToLower (strReplace (u.drop (p + t.length)) t r) := by
        rw [strToLower, List.map_append, List.map_append, List.map_take, hlu']
        rfl
      rw [hlow] at hocc
      have hAlen : (u.take p).length = p := by
        rw [List.length_take]
        omega
      by_cases hc1 : i + t.length ≤ p
      · have hocc_u : t.isPrefixOf (u.drop i) = true := by
          apply isPrefixOf_of_getElem
          intro k hk
          have h1 := occ_getElem hocc hk
          rw [List.getElem?_append_left (by rw [List.length_append, hAlen]; omega),
            List.getElem?_append_left (by rw [hAlen]; omega),
            List.getElem?_take_of_lt (by omega)] at h1
          exact h1
        have := strIndex_minimal hidx i hocc_u
        omega
      · by_cases hc2 : p + (strToLower r).length ≤ i
        · have hdrop : ((u.take p ++ strToLower r) ++
              strToLower (strReplace (u.drop (p + t.length)) t r)).drop i =
              (strToLower (strReplace (u.drop (p + t.length)) t r)).drop
                (i - (p + (strToLower r).length)) := by
            rw [List.drop_append_eq_append_drop]
            have hlen2 : (u.take p ++ strToLower r).length = p + (strToLower r).length := by
              rw [List.length_append, hAlen]
            rw [List.drop_eq_nil_of_le (by rw [hlen2]; omega), List.nil_append, hlen2]
          rw [hdrop] at hocc
          exact ih t r (u.drop (p + t.length)) ht hr hlt
            (by rw [strToLower, List.map_drop, hlu']) hdisj
            (by rw [List.length_drop]; omega) _ hocc
        · have hk : p - i < t.length := by omega
          have hchar := occ_getElem hocc hk
          have hL : ((u.take p ++ strToLower r) ++
              strToLower (strReplace (u.drop (p + t.length)) t r))[i + (p - i)]? =
              (strToLower r)[i + (p - i) - p]? := by
            rw [List.getElem?_append_left (by rw [List.length_append, hAlen]; omega),
              List.getElem?_append_right (by rw [hAlen]; omega), hAlen]
          cases htk : t[p - i]? with
          | none =>
            rw [List.getElem?_eq_none_iff] at htk
            omega
          | some ch =>
            have hcR : (strToLower r)[i + (p - i) - p]? = some ch := by
              rw [← hL, hchar, htk]
            exact hdisj ch (List.getElem?_mem hcR) (List.getElem?_mem htk)

theorem containsCI_replace_false (t r u : Str) (ht : t ≠ []) (hr : r ≠ [])
    (hlt : strToLower t = t) (hlu : strToLower u = u)
    (hdisj : ∀ c ∈ strToLower r, c ∉ t) :
    containsCI t (strReplace u t r) = false := by
  rw [containsCI, hlt]
  cases hs : strIndex (strToLower (strReplace u t r)) t with
  | none => rfl
  | some p =>
    have hocc := strIndex_isPrefixOf hs
    exact absurd hocc (strReplace_no_occ u.length t r u ht hr hlt hlu hdisj (le_refl _) p)

theorem newNameOf_no_match (t r nm : Str) (ht : t ≠ []) (hr : r ≠ [])
    (hlt : strToLower t = t) (hln : strToLower nm = nm)
    (hdisj : ∀ c ∈ strToLower r, c ∉ t) :
    containsCI t (newNameOf t r nm) = false := by
  rw [newNameOf]
  cases hc : regexCapture t nm with
  | none =>
    dsimp only
    have hb := regexCapture_isSome t nm
    rw [hc] at hb
    simpa using hb.symm
  | some cap =>
    dsimp only
    rw [regexCapture_lower_eq hlt hln hc]
    exact containsCI_replace_false t r nm ht hr hlt hln hdisj

theorem update_nil_of_clean (t r : Str) (l : List ReadOp)
    (h : ∀ rd ∈ l, containsCI t rd.contents = false) : update t r l = [] := by
  rw [update, List.filterMap_eq_nil_iff]
  intro rd hrd
  have hb := regexCapture_isSome t rd.contents
  rw [h rd hrd] at hb
  cases hc : regexCapture t rd.contents with
  | none => rfl
  | some cap =>
    rw [hc] at hb
    simp at hb

mutual
/-- The names that a planning walk actually visits: every file name, and
every non-ignored directory name together with its subtree's walked
names (an ignored directory and its subtree are invisible). -/
def walkedNamesNode (igs : List Str) : FSNode → List Str
  | .file nm _ => [nm]
  | .dir nm cs =>
      if strToLower nm ∈ igs then [] else nm :: walkedNamesList igs cs

def walkedNamesList (igs : List Str) : FSList → List Str
  | .nil => []
  | .cons n rest => walkedNamesNode igs n ++ walkedNamesList igs rest
end

mutual
/-- Every name and every file content in the tree is lowercase (so each
case-insensitive occurrence of a lowercase term is a literal one). -/
def lowNode : FSNode → Bool
  | .file nm c => decide (strToLower nm = nm) && decide (strToLower c = c)
  | .dir nm cs => decide (strToLower nm = nm) && lowList cs

def lowList : FSList → Bool
  | .nil => true
  | .cons n rest => lowNode n && lowList rest
end

mutual
theorem renNode_names_clean (t r : Str) (igs : List Str) (ht : t ≠ []) (hr : r ≠ [])
    (hlt : strToLower t = t) (hdisj : ∀ c ∈ strToLower r, c ∉ t) :
    ∀ (n : FSNode), lowNode n = true →
    ∀ nm ∈ walkedNamesNode igs (renNode t r igs n), containsCI t nm = false := by
  intro n hlow nm hnm
  match n with
  | .file nm0 c =>
    rw [renNode, walkedNamesNode, List.mem_singleton] at hnm
    subst hnm
    rw [lowNode, Bool.and_eq_true, decide_eq_true_eq, decide_eq_true_eq] at hlow
    exact newNameOf_no_match t r nm0 ht hr hlt hlow.1 hdisj
  | .dir nm0 cs =>
    rw [lowNode, Bool.and_eq_true, decide_eq_true_eq] at hlow
    rw [renNode] at hnm
    by_cases hig : strToLower nm0 ∈ igs
    · rw [if_pos hig, walkedNamesNode, if_pos hig] at hnm
      simp at hnm
    · rw [if_neg hig, walkedNamesNode] at hnm
      by_cases hig2 : strToLower (newNameOf t r nm0) ∈ igs
      · rw [if_pos hig2] at hnm
        simp at hnm
      · rw [if_neg hig2, List.mem_cons] at hnm
        rcases hnm with rfl | hnm
        · exact newNameOf_no_match t r nm0 ht hr hlt hlow.1 hdisj
        · exact renList_names_clean t r igs ht hr hlt hdisj cs hlow.2 nm hnm

theorem renList_names_clean (t r : Str) (igs : List Str) (ht : t ≠ []) (hr : r ≠ [])
    (hlt : strToLower t = t) (hdisj : ∀ c ∈ strToLower r, c ∉ t) :
    ∀ (l : FSList), lowList l = true →
    ∀ nm ∈ walkedNamesList igs (renList t r igs l), containsCI t nm = false := by
  intro l hlow nm hnm
  match l with
  | .nil =>
    rw [renList, walkedNamesList] at hnm
    simp at hnm
  | .cons n rest =>
    rw [lowList, Bool.and_eq_true] at hlow
    rw [renList, walkedNamesList, List.mem_append] at hnm
    rcases hnm with hnm | hnm
    · exact renNode_names_clean t r igs ht hr hlt hdisj n hlow.1 nm hnm
    · exact renList_names_clean t r igs ht hr hlt hdisj rest hlow.2 nm hnm
end

mutual
theorem planNode_nil_of_clean (t r : Str) (igs : List Str) :
    ∀ (n : FSNode), (∀ nm ∈ walkedNamesNode igs n, containsCI t nm = false) →
    planNode t r igs n = [] := by
  intro n h
  match n with
  | .file nm c =>
    have hc := h nm (by rw [walkedNamesNode]; exact List.mem_singleton.mpr rfl)
    have hb := regexCapture_isSome t nm
    rw [hc] at hb
    rw [planNode, if_neg (by rw [hb]; simp)]
  | .dir nm cs =>
    rw [planNode]
    by_cases hig : strToLower nm ∈ igs
    · rw [if_pos hig]
    · rw [if_neg hig]
      have hself := h nm (by rw [walkedNamesNode, if_neg hig]; exact List.mem_cons_self ..)
      have hb := regexCapture_isSome t nm
      rw [hself] at hb
      rw [if_neg (by rw [hb]; simp)]
      rw [planList_nil_of_clean t r igs cs (by
        intro nm' hnm'
        exact h nm' (by
          rw [walkedNamesNode, if_neg hig]
          exact List.mem_cons_of_mem nm hnm'))]
      rfl

theorem planList_nil_of_clean (t r : Str) (igs : List Str) :
    ∀ (l : FSList), (∀ nm ∈ walkedNamesList igs l, containsCI t nm = false) →
    planList t r igs l = [] := by
  intro l h
  match l with
  | .nil => rw [planList]
  | .cons n rest =>
    rw [planList,
      planNode_nil_of_clean t r igs n (fun nm hnm =>
        h nm (by rw [walkedNamesList, List.mem_append]; exact Or.inl hnm)),
      planList_nil_of_clean t r igs rest (fun nm hnm =>
        h nm (by rw [walkedNamesList, List.mem_append]; exact Or.inr hnm))]
    rfl
end

mutual
theorem walked_upd_node (t r : Str) (igs exts : List Str) : ∀ (n : FSNode),
    walkedNamesNode igs (updNode t r igs exts n) = walkedNamesNode igs n := by
  intro n
  match n with
  | .file nm c =>
    rw [updNode]
    by_cases he : fileExt (strToLower nm) ∈ exts ∧ fileExt (strToLower nm) ≠ []
    · rw [if_pos he, walkedNamesNode, walkedNamesNode]
    · rw [if_neg he]
  | .dir nm cs =>
    rw [updNode]
    by_cases hig : strToLower nm ∈ igs
    · rw [if_pos hig]
    · rw [if_neg hig, walkedNamesNode, if_neg hig, walkedNamesNode, if_neg hig,
        walked_upd_list t r igs exts cs]

theorem walked_upd_list (t r : Str) (igs exts : List Str) : ∀ (l : FSList),
    walkedNamesList igs (updList t r igs exts l) = walkedNamesList igs l := by
  intro l
  match l with
  | .nil => rw [updList]
  | .cons n rest =>
    rw [updList, walkedNamesList, walkedNamesList, walked_upd_node t r igs exts n,
      walked_upd_list t r igs exts rest]
end

mutual
theorem walk_upd_ren_clean (t r : Str) (igs exts : List Str) (ht : t ≠ []) (hr : r ≠ [])
    (hlt : strToLower t = t) (hdisj : ∀ c ∈ strToLower r, c ∉ t) :
    ∀ (n : FSNode) (par : List Str), lowNode n = true →
    ∀ pc ∈ walkFilesNode igs exts par (updNode t r igs exts (renNode t r igs n)),
      containsCI t pc.2 = false := by
  intro n par hlow pc hpc
  match n with
  | .file nm c =>
    rw [lowNode, Bool.and_eq_true, decide_eq_true_eq, decide_eq_true_eq] at hlow
    rw [renNode, updNode] at hpc
    by_cases he : fileExt (strToLower (newNameOf t r nm)) ∈ exts ∧
        fileExt (strToLower (newNameOf t r nm)) ≠ []
    · rw [if_pos he, walkFilesNode, if_pos he, List.mem_singleton] at hpc
      subst hpc
      exact newNameOf_no_match t r c ht hr hlt hlow.2 hdisj
    · rw [if_neg he, walkFilesNode, if_neg he] at hpc
      simp at hpc
  | .dir nm cs =>
    rw [lowNode, Bool.and_eq_true, decide_eq_true_eq] at hlow
    rw [renNode] at hpc
    by_cases hig : strToLower nm ∈ igs
    · rw [if_pos hig, updNode, if_pos hig, walkFilesNode, if_pos hig] at hpc
      simp at hpc
    · rw [if_neg hig, updNode] at hpc
      by_cases hig2 : strToLower (newNameOf t r nm) ∈ igs
      · rw [if_pos hig2, walkFilesNode, if_pos hig2] at hpc
        simp at hpc
      · rw [if_neg hig2, walkFilesNode, if_neg hig2] at hpc
        exact walk_upd_ren_list_clean t r igs exts ht hr hlt hdisj cs
          (par ++ [newNameOf t r nm]) hlow.2 pc hpc

theorem walk_upd_ren_list_clean (t r : Str) (igs exts : List Str) (ht : t ≠ [])
    (hr : r ≠ []) (hlt : strToLower t = t) (hdisj : ∀ c ∈ strToLower r, c ∉ t) :
    ∀ (l : FSList) (par : List Str), lowList l = true →
    ∀ pc ∈ walkFilesList igs exts par (updList t r igs exts (renList t r igs l)),
      containsCI t pc.2 = false := by
  intro l par hlow pc hpc
  match l with
  | .nil =>
    rw [renList, updList, walkFilesList] at hpc
    simp at hpc
  | .cons n rest =>
    rw [lowList, Bool.and_eq_true] at hlow
    rw [renList, updList, walkFilesList, List.mem_append] at hpc
    rcases hpc with hpc | hpc
    · exact walk_upd_ren_clean t r igs exts ht hr hlt hdisj n par hlow.1 pc hpc
    · exact walk_upd_ren_list_clean t r igs exts ht hr hlt hdisj rest par hlow.2 pc hpc
end

/-- C4 (amended): provided the term and the tree's names and contents
are lowercase, the replacement is nonempty and shares no character
(case-insensitively) with the term, the tree is collision-free, and the
runtime's append capacity `capOf` covers every partition bound (so no
broker stage panics and the run completes at all), one execution leaves
no walked entry name containing the term (case-insensitively), and a
second execution over the produced tree plans zero renames and zero
content writes. -/
theorem run_second_pass_clean (capOf : Nat → Nat) (find r ignoredirs exts : Str)
    (cs : Bool) (root : FSNode)
    (hcap : ∀ n, GOPROCESSES * (n / GOPROCESSES + 1) ≤ capOf n)
    (hfind : find ≠ []) (hrne : r ≠ [])
    (hlfind : strToLower find = find)
    (hdisj : ∀ c ∈ strToLower r, c ∉ find)
    (hlow : lowNode root = true)
    (hok : nodeOk find r root = true) :
    ∃ root1,
      run capOf find r ignoredirs exts cs root = some (.cons root1 .nil, none) ∧
      (∀ nm ∈ walkedNamesNode (splitToMap (strToLower ignoredirs) []) root1,
        containsCI find nm = false) ∧
      planNode find r (splitToMap (strToLower ignoredirs) []) root1 = [] ∧
      update find r
        ((walkFilesNode (splitToMap (strToLower ignoredirs) [])
          (splitToMap exts ['.']) [] root1).map
          (fun pc => ⟨pc.1.flatten, pc.2⟩)) = [] := by
  refine ⟨updNode find r (splitToMap (strToLower ignoredirs) [])
    (splitToMap exts ['.']) (renNode find r (splitToMap (strToLower ignoredirs) []) root),
    ?_, ?_, ?_, ?_⟩
  · rw [run]
    have hex := execNode find r (splitToMap (strToLower ignoredirs) []) root .nil hok
      (Or.inr (by rw [fsNames]; simp))
    rw [hex]
    dsimp only
    rw [replaceContents_complete capOf hcap]
    rw [Option.map_some']
    rw [updList, updList]
  · intro nm hnm
    rw [walked_upd_node] at hnm
    exact renNode_names_clean find r _ hfind hrne hlfind hdisj root hlow nm hnm
  · apply planNode_nil_of_clean
    intro nm hnm
    rw [walked_upd_node] at hnm
    exact renNode_names_clean find r _ hfind hrne hlfind hdisj root hlow nm hnm
  · apply update_nil_of_clean
    intro rd hrd
    rw [List.mem_map] at hrd
    obtain ⟨pc, hpc, rfl⟩ := hrd
    exact walk_upd_ren_clean find r _ _ hfind hrne hlfind hdisj root [] hlow pc hpc

theorem run_second_pass_clean_witness :
    ∃ root1,
      run (fun n => GOPROCESSES * (n / GOPROCESSES + 1)) ("old".toList) ("nw".toList)
          (".vs,.git".toList) ("txt".toList) false
          (.dir ("r".toList) (.cons (.file ("data.txt".toList) ("x old y".toList)) .nil)) =
        some (.cons root1 .nil, none) ∧
      (∀ nm ∈ walkedNamesNode (splitToMap (strToLower (".vs,.git".toList)) []) root1,
        containsCI ("old".toList) nm = false) ∧
      planNode ("old".toList) ("nw".toList)
        (splitToMap (strToLower (".vs,.git".toList)) []) root1 = [] ∧
      update ("old".toList) ("nw".toList)
        ((walkFilesNode (splitToMap (strToLower (".vs,.git".toList)) [])
          (splitToMap ("txt".toList) ['.']) [] root1).map
          (fun pc => ⟨pc.1.flatten, pc.2⟩)) = [] :=
  run_second_pass_clean (fun n => GOPROCESSES * (n / GOPROCESSES + 1)) ("old".toList)
    ("nw".toList) (".vs,.git".toList) ("txt".toList)
    false (.dir ("r".toList) (.cons (.file ("data.txt".toList) ("x old y".toList)) .nil))
    (fun n => Nat.le_refl _)
    (by decide) (by decide) (by decide) (by decide) (by decide) (by decide)

/-- C4 counterexample: find `"foo"`, replace `"bar"`, tree `r/fooFOO`:
the one matching name `"fooFOO"` is renamed to `"foobar"` (the captured
substring is the last occurrence, `"FOO"`), and `"foobar"` still
contains `"foo"`; a second execution plans a further rename, so one run
does not eliminate the term and running twice is not a no-op. -/
theorem idempotence_fails :
    run (fun n => n) ("foo".toList) ("bar".toList) (".vs,.git".toList) ("txt".toList)
        false (.dir ("r".toList) (.cons (.file ("fooFOO".toList) []) .nil)) =
      some (.cons (.dir ("r".toList) (.cons (.file ("foobar".toList) []) .nil)) .nil,
        none) ∧
    containsCI ("foo".toList) ("foobar".toList) = true ∧
    planNode ("foo".toList) ("bar".toList) [".vs".toList, ".git".toList]
      (.dir ("r".toList) (.cons (.file ("foobar".toList) []) .nil)) ≠ [] := by
  decide

theorem takeWhile_getElem_of_all {p : Char → Bool} : ∀ (l : Str) (m : Nat),
    (∀ i c, i < m → l[i]? = some c → p c = true) →
    ∀ i, i < m → (l.takeWhile p)[i]? = l[i]? := by
  intro l
  induction l with
  | nil => intro m _ i _; simp
  | cons a l' ih =>
    intro m h i him
    have ha : p a = true := h 0 a (by omega) (by simp)
    rw [List.takeWhile_cons, if_pos ha]
    match i with
    | 0 => simp
    | i' + 1 =>
      rw [List.getElem?_cons_succ, List.getElem?_cons_succ]
      exact ih (m - 1)
        (fun j c hj hc => h (j + 1) c (by omega)
          (by rw [List.getElem?_cons_succ]; exact hc)) i' (by omega)

theorem after_takeWhile_char {p : Char → Bool} (l : Str)
    (h : (l.takeWhile p).length < l.length) :
    ∃ c, l[(l.takeWhile p).length]? = some c ∧ p c = false := by
  have hsplit : l.takeWhile p ++ l.dropWhile p = l :=
    List.takeWhile_append_dropWhile _ _
  cases hd : l.dropWhile p with
  | nil =>
    exfalso
    rw [hd, List.append_nil] at hsplit
    rw [hsplit] at h
    omega
  | cons c rest =>
    refine ⟨c, ?_, ?_⟩
    · calc l[(l.takeWhile p).length]?
          = (l.takeWhile p ++ l.dropWhile p)[(l.takeWhile p).length]? := by rw [hsplit]
        _ = (l.dropWhile p)[(l.takeWhile p).length - (l.takeWhile p).length]? :=
            List.getElem?_append_right (le_refl _)
        _ = some c := by rw [hd]; simp
    · have hb := List.head?_dropWhile_not p l
      rw [hd] at hb
      simpa using hb

/-- C1 (amended): whenever the pattern matches a candidate name or
content, the matched substring used for substitution is the one at the
**last** case-insensitive occurrence of the term inside the **first**
newline-free run containing an occurrence — `j0` is the position of the
first occurrence, `lineStart` the start of the newline-delimited run
around it, `seg` that maximal newline-free run, and `k` the last
occurrence inside it; for a newline-free candidate, such as an entry
name, this is the last occurrence in the whole candidate (final
conjunct).  The capture keeps the candidate's original casing, and all
literal occurrences of that exact substring are then replaced. -/
theorem capture_last_in_first_run (t s : Str) (ht : t ≠ [])
    (htn : '\n' ∉ strToLower t) {cap : Str} (h : regexCapture t s = some cap) :
    ∃ j0 lineStart seg rest k,
      (strToLower t).isPrefixOf ((strToLower s).drop j0) = true ∧
      (∀ m, (strToLower t).isPrefixOf ((strToLower s).drop m) = true → j0 ≤ m) ∧
      lineStart ≤ j0 ∧
      (lineStart = 0 ∨ (strToLower s)[lineStart - 1]? = some '\n') ∧
      (∀ i, lineStart ≤ i → i < j0 → (strToLower s)[i]? ≠ some '\n') ∧
      (strToLower s).drop lineStart = seg ++ rest ∧
      (∀ c ∈ seg, c ≠ '\n') ∧
      (∀ c, rest.head? = some c → c = '\n') ∧
      (strToLower t).isPrefixOf (seg.drop k) = true ∧
      (∀ m, (strToLower t).isPrefixOf (seg.drop m) = true → m ≤ k) ∧
      cap = (s.drop (lineStart + k)).take t.length ∧
      strToLower cap = strToLower t ∧
      (∀ r, newNameOf t r s = strReplace s cap r) ∧
      ('\n' ∉ strToLower s →
        ∀ m, (strToLower t).isPrefixOf ((strToLower s).drop m) = true →
          m ≤ lineStart + k) := by
  have h0 := h
  rw [regexCapture] at h
  cases hidx : strIndex (strToLower s) (strToLower t) with
  | none => rw [hidx] at h; exact absurd h (by simp)
  | some j0 =>
    rw [hidx] at h
    dsimp only at h
    have hocc0 := strIndex_isPrefixOf hidx
    have hmin := strIndex_minimal hidx
    have hb := strIndex_bound hidx
    have hltne : strToLower t ≠ [] := by
      intro hc
      rw [strToLower, List.map_eq_nil_iff] at hc
      exact ht hc
    have hltlen : (strToLower t).length = t.length := by
      rw [strToLower, List.length_map]
    set ls := strToLower s with hls
    set lt := strToLower t with hlt
    have hprelen : (ls.take j0).length = j0 := by
      rw [List.length_take]
      omega
    set tl := ((ls.take j0).reverse.takeWhile (· != '\n')).length with htl
    have htlj0 : tl ≤ j0 := by
      have h1 : tl ≤ (ls.take j0).reverse.length := by
        rw [htl]
        exact (List.takeWhile_prefix _).length_le
      rw [List.length_reverse, hprelen] at h1
      exact h1
    have hWeq : (ls.take j0).reverse.takeWhile (· != '\n') =
        ((ls.take j0).reverse).take tl := by
      rw [htl]
      exact List.prefix_iff_eq_take.mp (List.takeWhile_prefix _)
    have hleft : ∀ i, j0 - tl ≤ i → i < j0 → ls[i]? ≠ some '\n' := by
      intro i h1 h2 hc
      have hri : j0 - 1 - i < tl := by omega
      have hRi : (ls.take j0).reverse[j0 - 1 - i]? = some '\n' := by
        rw [List.getElem?_reverse (by rw [hprelen]; omega), hprelen]
        have he : j0 - 1 - (j0 - 1 - i) = i := by omega
        rw [he, List.getElem?_take_of_lt h2]
        exact hc
      have hWi : ((ls.take j0).reverse.takeWhile (· != '\n'))[j0 - 1 - i]? =
          some '\n' := by
        rw [hWeq, List.getElem?_take_of_lt hri]
        exact hRi
      have hm : '\n' ∈ (ls.take j0).reverse.takeWhile (· != '\n') :=
        List.getElem?_mem hWi
      have := List.mem_takeWhile_imp hm
      simp at this
    have hbdy : j0 - tl = 0 ∨ ls[j0 - tl - 1]? = some '\n' := by
      rcases Nat.eq_or_lt_of_le htlj0 with heq | hlt2
      · left; omega
      · right
        have hlen2 : ((ls.take j0).reverse.takeWhile (· != '\n')).length <
            (ls.take j0).reverse.length := by
          rw [List.length_reverse, hprelen, ← htl]
          exact hlt2
        obtain ⟨c, hcg, hcp⟩ := after_takeWhile_char (ls.take j0).reverse hlen2
        have hcnl : c = '\n' := by simpa using hcp
        subst hcnl
        rw [← htl] at hcg
        rw [List.getElem?_reverse (by rw [hprelen]; omega), hprelen] at hcg
        have he : j0 - 1 - tl = j0 - tl - 1 := by omega
        rw [he, List.getElem?_take_of_lt (by omega)] at hcg
        exact hcg
    set lineStart := j0 - tl with hlsd
    set seg := (ls.drop lineStart).takeWhile (· != '\n') with hsegd
    have hrs : runStart ls j0 = lineStart := by
      rw [runStart, hlsd, htl]
    have hdj : lineStart ≤ j0 := by omega
    have hall2 : ∀ i c, i < (j0 - lineStart) + lt.length →
        (ls.drop lineStart)[i]? = some c → ((c != '\n') = true) := by
      intro i c hi hic
      rw [List.getElem?_drop] at hic
      by_cases hcase : i < j0 - lineStart
      · have hne := hleft (lineStart + i) (by omega) (by omega)
        have hcn : c ≠ '\n' := fun hcc => hne (hcc ▸ hic)
        simpa using hcn
      · have hik : lineStart + i = j0 + (i - (j0 - lineStart)) := by omega
        rw [hik] at hic
        have hocck := occ_getElem hocc0
          (show i - (j0 - lineStart) < lt.length by omega)
        rw [hic] at hocck
        have hcm : c ∈ lt := List.getElem?_mem hocck.symm
        have hcn : c ≠ '\n' := fun hcc => htn (hcc ▸ hcm)
        simpa using hcn
    have hsegget : ∀ i, i < (j0 - lineStart) + lt.length →
        seg[i]? = (ls.drop lineStart)[i]? := by
      intro i hi
      rw [hsegd]
      exact takeWhile_getElem_of_all (ls.drop lineStart)
        ((j0 - lineStart) + lt.length) hall2 i hi
    have hoccseg : lt.isPrefixOf (seg.drop (j0 - lineStart)) = true := by
      apply isPrefixOf_of_getElem
      intro k hk
      rw [hsegget ((j0 - lineStart) + k) (by omega), List.getElem?_drop]
      have he : lineStart + ((j0 - lineStart) + k) = j0 + k := by omega
      rw [he]
      exact occ_getElem hocc0 hk
    have hsome := strLastIndex_isSome_of_isPrefixOf hoccseg
    rw [Option.isSome_iff_exists] at hsome
    obtain ⟨k, hk⟩ := hsome
    rw [capturePos, hrs, ← hsegd, hk] at h
    dsimp only at h
    have hkle : k ≤ seg.length := strLastIndex_le hk
    have hlastocc := strLastIndex_isPrefixOf hk
    have hsegsplit : seg ++ (ls.drop lineStart).dropWhile (· != '\n') =
        ls.drop lineStart := by
      rw [hsegd]
      exact List.takeWhile_append_dropWhile _ _
    have hoccls : lt.isPrefixOf (ls.drop (lineStart + k)) = true := by
      have hdk : (ls.drop lineStart).drop k =
          seg.drop k ++ (ls.drop lineStart).dropWhile (· != '\n') := by
        conv_lhs => rw [← hsegsplit]
        rw [List.drop_append_of_le_length hkle]
      have hpre : lt <+: (ls.drop lineStart).drop k := by
        rw [hdk]
        exact (List.isPrefixOf_iff_prefix.mp hlastocc).trans (List.prefix_append _ _)
      rw [List.drop_drop] at hpre
      rw [List.isPrefixOf_iff_prefix]
      exact hpre
    have hcap : cap = (s.drop (lineStart + k)).take t.length := by
      rw [← Option.some.inj h, hltlen]
    have hlowcap : strToLower cap = lt := by
      have hpre2 : lt <+: ls.drop (lineStart + k) :=
        List.isPrefixOf_iff_prefix.mp hoccls
      rw [List.prefix_iff_eq_take] at hpre2
      rw [← Option.some.inj h]
      rw [strToLower, List.map_take, List.map_drop]
      have hlsm : List.map Char.toLower s = ls := by rw [hls, strToLower]
      rw [hlsm]
      exact hpre2.symm
    have hnn : ∀ r, newNameOf t r s = strReplace s cap r := by
      intro r
      rw [newNameOf, h0]
    have hsegnl : ∀ c ∈ seg, c ≠ '\n' := by
      intro c hc
      rw [hsegd] at hc
      have := List.mem_takeWhile_imp hc
      simpa using this
    have hresthd : ∀ c, ((ls.drop lineStart).dropWhile (· != '\n')).head? = some c →
        c = '\n' := by
      intro c hc
      have hb2 := List.head?_dropWhile_not (· != '\n') (ls.drop lineStart)
      rw [hc] at hb2
      simpa using hb2
    have hnlhalf : '\n' ∉ ls → ∀ m, lt.isPrefixOf (ls.drop m) = true →
        m ≤ lineStart + k := by
      intro hnl m hm
      have hallm : ∀ c ∈ ls, (c != '\n') = true := by
        intro c hc
        have hcn : c ≠ '\n' := fun hcc => hnl (hcc ▸ hc)
        simpa using hcn
      have htl0 : tl = j0 := by
        rw [htl]
        have hW : (ls.take j0).reverse.takeWhile (· != '\n') = (ls.take j0).reverse :=
          takeWhile_ne_newline (fun c hc =>
            hallm c (List.mem_of_mem_take (List.mem_reverse.mp hc)))
        rw [hW, List.length_reverse, hprelen]
      have hls0 : lineStart = 0 := by omega
      have hsegls : seg = ls := by
        rw [hsegd, hls0, List.drop_zero]
        exact takeWhile_ne_newline hallm
      have hmk := strLastIndex_maximal hltne hk m (by rw [hsegls]; exact hm)
      omega
    exact ⟨j0, lineStart, seg, (ls.drop lineStart).dropWhile (· != '\n'), k,
      hocc0, hmin, hdj, hbdy, hleft, hsegsplit.symm, hsegnl, hresthd,
      hlastocc, strLastIndex_maximal hltne hk, hcap, hlowcap, hnn, hnlhalf⟩

theorem capture_last_in_first_run_witness :
    ∃ j0 lineStart seg rest k,
      (strToLower ("foo".toList)).isPrefixOf
        ((strToLower ("no\nfooFOO\nfoo".toList)).drop j0) = true ∧
      (∀ m, (strToLower ("foo".toList)).isPrefixOf
        ((strToLower ("no\nfooFOO\nfoo".toList)).drop m) = true → j0 ≤ m) ∧
      lineStart ≤ j0 ∧
      (lineStart = 0 ∨
        (strToLower ("no\nfooFOO\nfoo".toList))[lineStart - 1]? = some '\n') ∧
      (∀ i, lineStart ≤ i → i < j0 →
        (strToLower ("no\nfooFOO\nfoo".toList))[i]? ≠ some '\n') ∧
      (strToLower ("no\nfooFOO\nfoo".toList)).drop lineStart = seg ++ rest ∧
      (∀ c ∈ seg, c ≠ '\n') ∧
      (∀ c, rest.head? = some c → c = '\n') ∧
      (strToLower ("foo".toList)).isPrefixOf (seg.drop k) = true ∧
      (∀ m, (strToLower ("foo".toList)).isPrefixOf (seg.drop m) = true → m ≤ k) ∧
      "FOO".toList = (("no\nfooFOO\nfoo".toList).drop (lineStart + k)).take
        ("foo".toList).length ∧
      strToLower ("FOO".toList) = strToLower ("foo".toList) ∧
      (∀ r, newNameOf ("foo".toList) r ("no\nfooFOO\nfoo".toList) =
        strReplace ("no\nfooFOO\nfoo".toList) ("FOO".toList) r) ∧
      ('\n' ∉ strToLower ("no\nfooFOO\nfoo".toList) →
        ∀ m, (strToLower ("foo".toList)).isPrefixOf
          ((strToLower ("no\nfooFOO\nfoo".toList)).drop m) = true →
            m ≤ lineStart + k) :=
  capture_last_in_first_run ("foo".toList) ("no\nfooFOO\nfoo".toList)
    (by decide) (by decide)
    (show regexCapture ("foo".toList) ("no\nfooFOO\nfoo".toList) =
      some ("FOO".toList) by decide)

end Gfrn
